import Mathlib

/-!
Verification development for the wiki knowledge store (`src/rlm/wiki.py`):
a page repository keyed by unique titles, a directed link graph, and a
BM25-ranked inverted index kept consistent across create/update/delete.

The Python classes `WikiPage` and `Wiki` are shallowly embedded below.
Python dictionaries (which preserve insertion order) are embedded as
association lists; Python sets are embedded as duplicate-free lists;
Python floats are embedded as real numbers (the BM25 arithmetic) or as
rationals (the stored average document length, which the source computes
by exact sum-and-divide on small integers).  Exceptions (`KeyError`) are
embedded with `Except WikiError`; the source raises before mutating, so
an error result carries no partial state.
-/

set_option maxHeartbeats 1000000

inductive WikiError where
  | duplicateTitle
  | notFound
deriving DecidableEq

/-- Embeds the dataclass `WikiPage` (wiki.py lines 10-18).  `tags` and
`links` are Python sets, embedded as duplicate-free lists. -/
structure WikiPage where
  title : String
  content : String
  tags : List String
  links : List String
  created_at : Nat
  updated_at : Nat
deriving DecidableEq

/-- Embeds the state of class `Wiki` (wiki.py lines 32-39): `_pages`,
`_iteration`, `_inverted_index`, `_doc_lengths`, `_avg_doc_length`. -/
structure Wiki where
  pages : List (String × WikiPage)
  iteration : Nat
  invertedIndex : List (String × List String)
  docLengths : List (String × Nat)
  avgDocLength : ℚ
deriving DecidableEq

def emptyWiki : Wiki :=
  { pages := [], iteration := 0, invertedIndex := [], docLengths := [], avgDocLength := 0 }

/-- First-match association-list lookup: embeds Python dict access. -/
def alookup {α : Type} (k : String) : List (String × α) → Option α
  | [] => none
  | p :: ps => if p.1 = k then some p.2 else alookup k ps

def akeys {α : Type} (l : List (String × α)) : List String := l.map Prod.fst

/-- Word characters for the tokenizer: the source uses the regex class
`\w` (letters, digits, underscore); ASCII model. -/
def isWordChar (c : Char) : Bool := c.isAlphanum || c = '_'

def tokenSplit (c : Char) (acc : List Char × List (List Char)) :
    List Char × List (List Char) :=
  if isWordChar c then (c :: acc.1, acc.2)
  else ([], if acc.1.isEmpty then acc.2 else acc.1 :: acc.2)

/-- Embeds `Wiki._tokenize` (wiki.py lines 240-243): lowercase, then the
maximal runs of word characters. -/
def tokenize (s : String) : List String :=
  let p := (s.toList.map Char.toLower).foldr tokenSplit ([], [])
  (if p.1.isEmpty then p.2 else p.1 :: p.2).map fun cs => String.mk cs

/-- Python `set.add` on an insertion-ordered set. -/
def insertTitle (ts : List String) (t : String) : List String :=
  if t ∈ ts then ts else ts ++ [t]

/-- Embeds `self._inverted_index[token].add(title)`: the defaultdict
creates an empty set for a missing token, then adds the title. -/
def indexAdd (idx : List (String × List String)) (tok t : String) :
    List (String × List String) :=
  if (alookup tok idx).isSome then
    idx.map fun p => (p.1, if p.1 = tok then insertTitle p.2 t else p.2)
  else idx ++ [(tok, [t])]

/-- The loop `for token in set(tokens)` of `_index_page` (line 251-252). -/
def indexAddAll (idx : List (String × List String)) (toks : List String) (t : String) :
    List (String × List String) :=
  toks.foldl (fun a tok => indexAdd a tok t) idx

/-- `sum(self._doc_lengths.values()) / len(self._doc_lengths)`. -/
def avgOf (dl : List (String × ℕ)) : ℚ :=
  ((dl.map Prod.snd).sum : ℚ) / (dl.length : ℚ)

/-- Embeds `Wiki._remove_from_index` (wiki.py lines 257-270): drop the
length record, discard the title from every posting list, prune the
posting lists left empty, recompute the average (0 when none remain). -/
def removeFromIndex (w : Wiki) (title : String) : Wiki :=
  let dl := w.docLengths.filter fun p => decide (p.1 ≠ title)
  let idx := (w.invertedIndex.map fun p =>
      (p.1, p.2.filter fun s => decide (s ≠ title))).filter fun p => decide (p.2 ≠ [])
  { w with
    docLengths := dl
    invertedIndex := idx
    avgDocLength := if dl = [] then 0 else avgOf dl }

/-- Embeds `Wiki._index_page` (wiki.py lines 245-255): remove old
entries first, record the token count, add the title to each distinct
token's posting list, recompute the average when lengths exist. -/
def indexPage (w : Wiki) (title content : String) : Wiki :=
  let w1 := removeFromIndex w title
  let tokens := tokenize content
  let dl := w1.docLengths ++ [(title, tokens.length)]
  let idx := indexAddAll w1.invertedIndex tokens.dedup title
  { w1 with
    docLengths := dl
    invertedIndex := idx
    avgDocLength := if dl = [] then w1.avgDocLength else avgOf dl }

/-- Embeds `Wiki.create` (wiki.py lines 43-68).  The duplicate check
precedes every mutation, so the error result carries no new state. -/
def create (w : Wiki) (title content : String) (tags : Option (List String)) :
    Except WikiError (WikiPage × Wiki) :=
  if (alookup title w.pages).isSome then Except.error WikiError.duplicateTitle
  else
    let page : WikiPage :=
      { title := title
        content := content
        tags := (tags.getD []).dedup
        links := []
        created_at := w.iteration
        updated_at := w.iteration }
    Except.ok (page, indexPage { w with pages := w.pages ++ [(title, page)] } title content)

/-- In-place mutation of the page stored under `t` (the Python object
update keeps the dict position). -/
def replaceVal {α : Type} (l : List (String × α)) (t : String) (v : α) :
    List (String × α) :=
  l.map fun p => (p.1, if p.1 = t then v else p.2)

/-- Embeds `Wiki.update` (wiki.py lines 70-100): `content` replaces the
body; otherwise `append` concatenates; `tags` replaces the tag set;
`updated_at` is always bumped; the page is always re-indexed. -/
def update (w : Wiki) (title : String) (contentOpt appendOpt : Option String)
    (tagsOpt : Option (List String)) : Except WikiError (WikiPage × Wiki) :=
  match alookup title w.pages with
  | none => Except.error WikiError.notFound
  | some page =>
    let newContent :=
      match contentOpt with
      | some c => c
      | none =>
        match appendOpt with
        | some a => page.content ++ a
        | none => page.content
    let newTags :=
      match tagsOpt with
      | some t => t.dedup
      | none => page.tags
    let page' :=
      { page with
        content := newContent
        tags := newTags
        updated_at := w.iteration }
    Except.ok (page',
      indexPage { w with pages := replaceVal w.pages title page' } title newContent)

/-- Embeds `Wiki.get` (wiki.py lines 102-108). -/
def get (w : Wiki) (title : String) : Except WikiError WikiPage :=
  match alookup title w.pages with
  | none => Except.error WikiError.notFound
  | some page => Except.ok page

/-- Embeds `Wiki.delete` (wiki.py lines 110-122): existence check, strip
the title from every page's link set, remove it from the index, drop the
page. -/
def delete (w : Wiki) (title : String) : Except WikiError Wiki :=
  if (alookup title w.pages).isSome then
    let stripped := w.pages.map fun p =>
      (p.1, { p.2 with links := p.2.links.filter fun l => decide (l ≠ title) })
    let w1 := removeFromIndex { w with pages := stripped } title
    Except.ok { w1 with pages := w1.pages.filter fun p => decide (p.1 ≠ title) }
  else Except.error WikiError.notFound

/-- Embeds `Wiki.link` (wiki.py lines 124-131): both endpoints must
exist; then the target is added to the source page's link set. -/
def link (w : Wiki) (fromTitle toTitle : String) : Except WikiError Wiki :=
  if (alookup fromTitle w.pages).isSome then
    if (alookup toTitle w.pages).isSome then
      Except.ok { w with pages := w.pages.map fun p =>
        (p.1, if p.1 = fromTitle then { p.2 with links := insertTitle p.2.links toTitle }
              else p.2) }
    else Except.error WikiError.notFound
  else Except.error WikiError.notFound

/-- Embeds `Wiki.backlinks` (wiki.py lines 154-158): the sorted titles
of the pages whose link set contains `title`.  The source performs no
existence check and never raises, hence the unconditional `Except.ok`. -/
def backlinks (w : Wiki) (title : String) : Except WikiError (List String) :=
  Except.ok (List.insertionSort (fun a b => a ≤ b)
    ((w.pages.filter fun p => decide (title ∈ p.2.links)).map Prod.fst))

/-! ### BM25 search (wiki.py lines 162-199, 272-291)

The float arithmetic of the source is embedded over the real numbers;
`math.log` becomes `Real.log`, and Python's `round(score, 3)` becomes
rounding to the nearest multiple of 1/1000 (the two agree except at
exact midpoints, where Python rounds half to even). -/

/-- `k1 = 1.5` (wiki.py line 178). -/
noncomputable def bm25K1 : ℝ := 1.5

/-- `b = 0.75` (wiki.py line 178). -/
noncomputable def bm25B : ℝ := 0.75

/-- The idf of line 184: `log((n - df + 0.5) / (df + 0.5) + 1.0)`. -/
noncomputable def idfValue (n df : ℕ) : ℝ :=
  Real.log (((n : ℝ) - (df : ℝ) + 0.5) / ((df : ℝ) + 0.5) + 1)

/-- Lines 190-192: `idf * (tf * (k1 + 1)) / (tf + k1 * (1 - b + b * dl / avg_dl))`. -/
noncomputable def termContribution (idf dl avgdl : ℝ) (tf : ℕ) : ℝ :=
  idf * ((tf : ℝ) * (bm25K1 + 1)) / ((tf : ℝ) + bm25K1 * (1 - bm25B + bm25B * dl / avgdl))

/-- Line 187: `Counter(self._tokenize(page.content))[term]`, the term
count in the retokenized current content of the page (0 is unreachable
junk: every scored title is a live page). -/
def tfOf (w : Wiki) (title term : String) : ℕ :=
  match alookup title w.pages with
  | some page => (tokenize page.content).count term
  | none => 0

/-- One iteration of the inner scoring loop (lines 185-192), with
`dl = self._doc_lengths.get(title, 1)` and
`avg_dl = self._avg_doc_length or 1.0`. -/
noncomputable def contrib (w : Wiki) (term title : String) : ℝ :=
  termContribution (idfValue w.pages.length ((alookup term w.invertedIndex).getD []).length)
    (((alookup title w.docLengths).getD 1 : ℕ) : ℝ)
    (if w.avgDocLength = 0 then 1 else (w.avgDocLength : ℝ))
    (tfOf w title term)

/-- `scores[title] += x` on `scores: Dict[str, float] = defaultdict(float)`:
a fresh title is appended with value `x`, an existing one is bumped. -/
noncomputable def addScore (sc : List (String × ℝ)) (t : String) (v : ℝ) :
    List (String × ℝ) :=
  if (alookup t sc).isSome then sc.map fun p => (p.1, if p.1 = t then p.2 + v else p.2)
  else sc ++ [(t, v)]

/-- The score accumulation loop of lines 180-192: every occurrence of a
query token contributes (the loop runs over `tokens`, not over the set
of distinct tokens), and tokens absent from the inverted index are
skipped. -/
noncomputable def scoresFor (w : Wiki) (tokens : List String) : List (String × ℝ) :=
  tokens.foldl
    (fun sc term =>
      match alookup term w.invertedIndex with
      | none => sc
      | some ds => ds.foldl (fun sc2 title => addScore sc2 title (contrib w term title)) sc)
    []

/-- Descending-score order used by `sorted(..., key=lambda x: x[1], reverse=True)`. -/
def scoreGE (x y : String × ℝ) : Prop := y.2 ≤ x.2

noncomputable instance : DecidableRel scoreGE := fun x y => Real.decidableLE y.2 x.2

instance : IsTotal (String × ℝ) scoreGE := ⟨fun x y => (le_total y.2 x.2).imp id id⟩

instance : IsTrans (String × ℝ) scoreGE := ⟨fun _ _ _ h1 h2 => le_trans h2 h1⟩

/-- Python's `round(x, 3)`: the nearest multiple of 1/1000. -/
noncomputable def round3 (x : ℝ) : ℝ := ((round (x * 1000) : ℤ) : ℝ) / 1000

/-- Python substring search `str.find` over character lists (`none` for
Python's -1). -/
def leadsList : List Char → List Char → Bool
  | [], _ => true
  | _ :: _, [] => false
  | a :: as, c :: cs => a = c && leadsList as cs

def findSub (needle : List Char) : List Char → Option ℕ
  | [] => if leadsList needle [] then some 0 else none
  | c :: t =>
    if leadsList needle (c :: t) then some 0
    else (findSub needle t).map fun k => k + 1

/-- `.replace("\n", " ")`. -/
def replaceNl (cs : List Char) : List Char := cs.map fun c => if c = '\n' then ' ' else c

/-- The scan of lines 276-280: the earliest position in the lowercased
content at which any query token occurs (starting from `len(content)`). -/
def bestPos (lower : List Char) (contentLen : ℕ) (queryTokens : List String) : ℕ :=
  queryTokens.foldl
    (fun best tok =>
      match findSub tok.toList lower with
      | none => best
      | some pos => if pos < best then pos else best)
    contentLen

/-- Embeds `Wiki._make_snippet` (wiki.py lines 272-291) with the default
`max_len = 120`; `max(0, best_pos - 30)` is truncated subtraction. -/
def makeSnippet (content : String) (queryTokens : List String) : String :=
  let cs := content.toList
  let lower := content.toList.map Char.toLower
  let best := bestPos lower cs.length queryTokens
  if best = cs.length then
    String.mk (replaceNl (cs.take 120)) ++ (if 120 < cs.length then "..." else "")
  else
    let start := best - 30
    let stop := start + 120
    let snippet := String.mk (replaceNl ((cs.take stop).drop start))
    let s1 := if 0 < start then "..." ++ snippet else snippet
    if stop < cs.length then s1 ++ "..." else s1

/-- Embeds `Wiki.search` (wiki.py lines 162-199).  Python's `sorted` is
a stable sort; for the total preorder `scoreGE`, `List.insertionSort`
is stable as well, so the two agree. -/
noncomputable def search (w : Wiki) (query : String) (topK : ℕ) :
    List (String × ℝ × String) :=
  let tokens := tokenize query
  if tokens = [] ∨ w.pages = [] then []
  else
    let ranked := (List.insertionSort scoreGE (scoresFor w tokens)).take topK
    ranked.map fun p =>
      (p.1, round3 p.2, makeSnippet (((alookup p.1 w.pages).map WikiPage.content).getD "") tokens)

/-! ### Reachable states

One step of the single mutating writer: the CRUD operations of the
store, plus `set_iteration` (wiki.py lines 229-231), which overwrites
the counter field. -/

inductive Step : Wiki → Wiki → Prop where
  | createStep (w : Wiki) (t c : String) (tg : Option (List String)) (p : WikiPage)
      (w' : Wiki) : create w t c tg = Except.ok (p, w') → Step w w'
  | updateStep (w : Wiki) (t : String) (c a : Option String) (tg : Option (List String))
      (p : WikiPage) (w' : Wiki) : update w t c a tg = Except.ok (p, w') → Step w w'
  | deleteStep (w : Wiki) (t : String) (w' : Wiki) : delete w t = Except.ok w' → Step w w'
  | linkStep (w : Wiki) (a c : String) (w' : Wiki) : link w a c = Except.ok w' → Step w w'
  | iterStep (w : Wiki) (n : ℕ) : Step w { w with iteration := n }

def Reachable (w : Wiki) : Prop := Relation.ReflTransGen Step emptyWiki w
/-! ### Association-list lemmas -/

theorem alookup_append_left {α : Type} {k : String} {l1 l2 : List (String × α)} {v : α}
    (h : alookup k l1 = some v) : alookup k (l1 ++ l2) = some v := by
  induction l1 with
  | nil => simp [alookup] at h
  | cons p ps ih =>
    rw [List.cons_append, alookup]
    rw [alookup] at h
    by_cases hp : p.1 = k
    · rwa [if_pos hp] at h ⊢
    · rw [if_neg hp] at h ⊢
      exact ih h

theorem alookup_append_right {α : Type} {k : String} {l1 l2 : List (String × α)}
    (h : alookup k l1 = none) : alookup k (l1 ++ l2) = alookup k l2 := by
  induction l1 with
  | nil => simp
  | cons p ps ih =>
    rw [List.cons_append, alookup]
    rw [alookup] at h
    by_cases hp : p.1 = k
    · rw [if_pos hp] at h
      exact absurd h (by simp)
    · rw [if_neg hp] at h ⊢
      exact ih h

theorem alookup_mapVal {α β : Type} (f : String → α → β) (k : String)
    (l : List (String × α)) :
    alookup k (l.map fun p => (p.1, f p.1 p.2)) = (alookup k l).map (f k) := by
  induction l with
  | nil => simp [alookup]
  | cons p ps ih =>
    simp only [List.map_cons, alookup]
    by_cases h : p.1 = k
    · subst h; simp
    · simp [h, ih]

theorem alookup_filterKey {α : Type} (k t : String) (l : List (String × α)) :
    alookup k (l.filter fun p => decide (p.1 ≠ t)) =
      if k = t then none else alookup k l := by
  induction l with
  | nil => simp [alookup]
  | cons p ps ih =>
    rw [List.filter_cons]
    by_cases hpt : p.1 = t
    · rw [if_neg (by simp [hpt]), ih]
      by_cases hkt : k = t
      · simp [hkt]
      · have hpk : p.1 ≠ k := fun h => hkt (h.symm.trans hpt)
        simp [alookup, hkt, hpk]
    · rw [if_pos (by simp [hpt])]
      by_cases hpk : p.1 = k
      · subst hpk
        simp [alookup, hpt]
      · rw [alookup, if_neg hpk, ih]
        by_cases hkt : k = t
        · simp [hkt]
        · simp [hkt, alookup, hpk]

theorem alookup_eq_none_iff {α : Type} {k : String} {l : List (String × α)} :
    alookup k l = none ↔ k ∉ akeys l := by
  induction l with
  | nil => simp [alookup, akeys]
  | cons p ps ih =>
    rw [alookup]
    by_cases h : p.1 = k
    · simp [akeys, h]
    · rw [if_neg h, ih]
      simp only [akeys, List.map_cons, List.mem_cons]
      constructor
      · intro hn hmem
        rcases hmem with h1 | h2
        · exact h h1.symm
        · exact hn h2
      · exact fun hn hm => hn (Or.inr hm)

theorem alookup_eq_none_of_not_mem {α : Type} {k : String} {l : List (String × α)}
    (h : k ∉ akeys l) : alookup k l = none :=
  alookup_eq_none_iff.mpr h

theorem alookup_isSome_iff {α : Type} {k : String} {l : List (String × α)} :
    (alookup k l).isSome ↔ k ∈ akeys l := by
  constructor
  · intro h
    by_contra hk
    rw [alookup_eq_none_of_not_mem hk] at h
    simp at h
  · intro h
    cases hh : alookup k l with
    | some v => simp
    | none => exact absurd h (alookup_eq_none_iff.mp hh)

theorem akeys_filter_sublist {α : Type} (q : String × α → Bool) (l : List (String × α)) :
    (akeys (l.filter q)).Sublist (akeys l) :=
  (List.filter_sublist l).map Prod.fst

theorem nodup_akeys_filter {α : Type} {q : String × α → Bool} {l : List (String × α)}
    (h : (akeys l).Nodup) : (akeys (l.filter q)).Nodup :=
  h.sublist (akeys_filter_sublist q l)

theorem alookup_filterVal {α : Type} (Q : α → Bool) (l : List (String × α)) (k : String)
    (hnd : (akeys l).Nodup) :
    alookup k (l.filter fun p => Q p.2) =
      (alookup k l).bind fun v => if Q v then some v else none := by
  induction l with
  | nil => simp [alookup]
  | cons p ps ih =>
    simp only [akeys, List.map_cons, List.nodup_cons] at hnd
    rw [List.filter_cons]
    by_cases hpk : p.1 = k
    · subst hpk
      by_cases hq : Q p.2
      · simp [alookup, hq]
      · have hnone : alookup p.1 (ps.filter fun p => Q p.2) = none :=
          alookup_eq_none_of_not_mem fun hm =>
            hnd.1 ((akeys_filter_sublist _ ps).subset hm)
        simp [alookup, hq, hnone]
    · by_cases hq : Q p.2 <;>
        simp [alookup, hq, hpk, ih hnd.2]

theorem mem_of_alookup {α : Type} {k : String} {l : List (String × α)} {v : α}
    (h : alookup k l = some v) : (k, v) ∈ l := by
  induction l with
  | nil => simp [alookup] at h
  | cons p ps ih =>
    rw [alookup] at h
    by_cases hp : p.1 = k
    · rw [if_pos hp] at h
      obtain rfl := Option.some_injective _ h
      subst hp
      exact List.mem_cons.mpr (Or.inl rfl)
    · rw [if_neg hp] at h
      exact List.mem_cons.mpr (Or.inr (ih h))

theorem alookup_of_mem {α : Type} {k : String} {l : List (String × α)} {v : α}
    (hnd : (akeys l).Nodup) (h : (k, v) ∈ l) : alookup k l = some v := by
  induction l with
  | nil => simp at h
  | cons p ps ih =>
    simp only [akeys, List.map_cons, List.nodup_cons] at hnd
    rcases List.mem_cons.mp h with h1 | h2
    · simp [alookup, ← h1]
    · have hk : k ∈ akeys ps := List.mem_map.mpr ⟨(k, v), h2, rfl⟩
      have hne : p.1 ≠ k := fun he => hnd.1 (by rw [he]; exact hk)
      simp [alookup, hne, ih hnd.2 h2]

theorem akeys_mapVal {α β : Type} (f : String → α → β) (l : List (String × α)) :
    akeys (l.map fun p => (p.1, f p.1 p.2)) = akeys l := by
  simp [akeys]

theorem akeys_append {α : Type} (l1 l2 : List (String × α)) :
    akeys (l1 ++ l2) = akeys l1 ++ akeys l2 := by
  simp [akeys]

theorem mem_akeys_filterKey {α : Type} {k t : String} {l : List (String × α)} :
    k ∈ akeys (l.filter fun p => decide (p.1 ≠ t)) ↔ k ∈ akeys l ∧ k ≠ t := by
  constructor
  · intro h
    rcases List.mem_map.mp h with ⟨p, hp, rfl⟩
    have hq := List.of_mem_filter hp
    simp only [decide_eq_true_eq] at hq
    exact ⟨List.mem_map.mpr ⟨p, List.mem_of_mem_filter hp, rfl⟩, hq⟩
  · rintro ⟨h1, h2⟩
    rcases List.mem_map.mp h1 with ⟨p, hp, rfl⟩
    exact List.mem_map.mpr ⟨p, List.mem_filter.mpr ⟨hp, by simpa using h2⟩, rfl⟩

theorem alookup_replaceVal {α : Type} (k t : String) (v : α) (l : List (String × α)) :
    alookup k (replaceVal l t v) = (alookup k l).map fun x => if k = t then v else x :=
  alookup_mapVal (fun s x => if s = t then v else x) k l

theorem akeys_replaceVal {α : Type} (t : String) (v : α) (l : List (String × α)) :
    akeys (replaceVal l t v) = akeys l :=
  akeys_mapVal (fun s x => if s = t then v else x) l

/-! ### Characterizations of the index operations -/

theorem alookup_indexAdd (idx : List (String × List String)) (tok t tok' : String) :
    alookup tok' (indexAdd idx tok t) =
      if tok' = tok then some (insertTitle ((alookup tok idx).getD []) t)
      else alookup tok' idx := by
  rw [indexAdd]
  by_cases hs : (alookup tok idx).isSome
  · rw [if_pos hs]
    rw [alookup_mapVal (fun s v => if s = tok then insertTitle v t else v) tok' idx]
    obtain ⟨ts, hts⟩ := Option.isSome_iff_exists.mp hs
    by_cases he : tok' = tok
    · subst he
      simp [hts]
    · cases hl : alookup tok' idx <;> simp [he, hl]
  · rw [if_neg hs]
    have hnone : alookup tok idx = none := Option.not_isSome_iff_eq_none.mp hs
    by_cases he : tok' = tok
    · subst he
      rw [alookup_append_right hnone, hnone]
      simp [alookup, insertTitle]
    · cases hl : alookup tok' idx with
      | some ts => simp [he, alookup_append_left hl, hl]
      | none =>
        rw [if_neg he, alookup_append_right hl]
        simp [alookup, show tok ≠ tok' from fun h => he h.symm]

theorem akeys_indexAdd_nodup {idx : List (String × List String)} {tok t : String}
    (h : (akeys idx).Nodup) : (akeys (indexAdd idx tok t)).Nodup := by
  rw [indexAdd]
  by_cases hs : (alookup tok idx).isSome
  · rw [if_pos hs]
    rw [show akeys (idx.map fun p => (p.1, if p.1 = tok then insertTitle p.2 t else p.2))
        = akeys idx from akeys_mapVal (fun s v => if s = tok then insertTitle v t else v) idx]
    exact h
  · rw [if_neg hs, akeys_append]
    refine h.append (by simp [akeys]) ?_
    intro a ha hb
    simp only [akeys, List.map_cons, List.map_nil, List.mem_singleton] at hb
    subst hb
    exact hs (alookup_isSome_iff.mpr ha)

theorem alookup_indexAddAll (idx : List (String × List String)) (toks : List String)
    (t tok : String) (hnd : toks.Nodup) :
    alookup tok (indexAddAll idx toks t) =
      if tok ∈ toks then some (insertTitle ((alookup tok idx).getD []) t)
      else alookup tok idx := by
  induction toks generalizing idx with
  | nil => simp [indexAddAll]
  | cons tok0 rest ih =>
    simp only [List.nodup_cons] at hnd
    have hstep : indexAddAll idx (tok0 :: rest) t = indexAddAll (indexAdd idx tok0 t) rest t := rfl
    rw [hstep, ih _ hnd.2]
    by_cases h0 : tok = tok0
    · subst h0
      rw [if_neg hnd.1, alookup_indexAdd, if_pos rfl, if_pos (List.mem_cons_self tok rest)]
    · rw [alookup_indexAdd, if_neg h0]
      by_cases hr : tok ∈ rest
      · rw [if_pos hr, if_pos (List.mem_cons.mpr (Or.inr hr))]
      · rw [if_neg hr, if_neg (by simp [h0, hr])]

theorem akeys_indexAddAll_nodup {idx : List (String × List String)} {toks : List String}
    {t : String} (h : (akeys idx).Nodup) : (akeys (indexAddAll idx toks t)).Nodup := by
  induction toks generalizing idx with
  | nil => exact h
  | cons tok0 rest ih => exact ih (akeys_indexAdd_nodup h)

theorem removeFromIndex_pages (w : Wiki) (t : String) :
    (removeFromIndex w t).pages = w.pages := rfl

theorem removeFromIndex_iteration (w : Wiki) (t : String) :
    (removeFromIndex w t).iteration = w.iteration := rfl

theorem removeFromIndex_docLengths (w : Wiki) (t : String) :
    (removeFromIndex w t).docLengths = w.docLengths.filter fun p => decide (p.1 ≠ t) := rfl

theorem alookup_docLengths_removeFromIndex (w : Wiki) (t s : String) :
    alookup s (removeFromIndex w t).docLengths =
      if s = t then none else alookup s w.docLengths := by
  rw [removeFromIndex_docLengths, alookup_filterKey]

theorem alookup_idx_removeFromIndex (w : Wiki) (t tok : String)
    (hnd : (akeys w.invertedIndex).Nodup) :
    alookup tok (removeFromIndex w t).invertedIndex =
      (alookup tok w.invertedIndex).bind fun ts =>
        if ts.filter (fun s => decide (s ≠ t)) = [] then none
        else some (ts.filter fun s => decide (s ≠ t)) := by
  have h1 : akeys (w.invertedIndex.map fun p => (p.1, p.2.filter fun s => decide (s ≠ t)))
      = akeys w.invertedIndex :=
    akeys_mapVal (fun _ v => v.filter fun s => decide (s ≠ t)) w.invertedIndex
  have h2 := alookup_filterVal (fun v : List String => decide (v ≠ []))
    (w.invertedIndex.map fun p => (p.1, p.2.filter fun s => decide (s ≠ t))) tok
    (by rw [h1]; exact hnd)
  have h3 := alookup_mapVal (fun _ v => v.filter fun s => decide (s ≠ t)) tok w.invertedIndex
  refine h2.trans ?_
  rw [h3]
  cases alookup tok w.invertedIndex with
  | none => rfl
  | some ts =>
    simp only [Option.map_some, Option.bind_some]
    by_cases he : ts.filter (fun s => decide (s ≠ t)) = [] <;> simp [he]

theorem akeys_idx_removeFromIndex_nodup {w : Wiki} {t : String}
    (hnd : (akeys w.invertedIndex).Nodup) :
    (akeys (removeFromIndex w t).invertedIndex).Nodup := by
  have h1 : akeys (w.invertedIndex.map fun p => (p.1, p.2.filter fun s => decide (s ≠ t)))
      = akeys w.invertedIndex :=
    akeys_mapVal (fun _ v => v.filter fun s => decide (s ≠ t)) w.invertedIndex
  exact nodup_akeys_filter (by rw [h1]; exact hnd)

theorem removeFromIndex_avg (w : Wiki) (t : String) :
    (removeFromIndex w t).avgDocLength =
      if (removeFromIndex w t).docLengths = [] then 0
      else avgOf (removeFromIndex w t).docLengths := rfl

theorem indexPage_pages (w : Wiki) (t c : String) : (indexPage w t c).pages = w.pages := rfl

theorem indexPage_iteration (w : Wiki) (t c : String) :
    (indexPage w t c).iteration = w.iteration := rfl

theorem indexPage_docLengths (w : Wiki) (t c : String) :
    (indexPage w t c).docLengths =
      (removeFromIndex w t).docLengths ++ [(t, (tokenize c).length)] := rfl

theorem alookup_docLengths_indexPage (w : Wiki) (t c s : String) :
    alookup s (indexPage w t c).docLengths =
      if s = t then some (tokenize c).length else alookup s w.docLengths := by
  rw [indexPage_docLengths]
  by_cases hst : s = t
  · subst hst
    rw [alookup_append_right (by rw [alookup_docLengths_removeFromIndex]; simp)]
    simp [alookup]
  · rw [if_neg hst]
    cases hl : alookup s w.docLengths with
    | some v =>
      exact alookup_append_left
        (by rw [alookup_docLengths_removeFromIndex, if_neg hst]; exact hl)
    | none =>
      rw [alookup_append_right (by rw [alookup_docLengths_removeFromIndex, if_neg hst]; exact hl)]
      simp [alookup, show t ≠ s from fun h => hst h.symm]

theorem alookup_idx_indexPage (w : Wiki) (t c tok : String) :
    alookup tok (indexPage w t c).invertedIndex =
      if tok ∈ (tokenize c).dedup then
        some (insertTitle ((alookup tok (removeFromIndex w t).invertedIndex).getD []) t)
      else alookup tok (removeFromIndex w t).invertedIndex := by
  have : (indexPage w t c).invertedIndex =
      indexAddAll (removeFromIndex w t).invertedIndex (tokenize c).dedup t := rfl
  rw [this, alookup_indexAddAll _ _ _ _ (List.nodup_dedup _)]

theorem akeys_idx_indexPage_nodup {w : Wiki} {t c : String}
    (hnd : (akeys w.invertedIndex).Nodup) :
    (akeys (indexPage w t c).invertedIndex).Nodup :=
  akeys_indexAddAll_nodup (akeys_idx_removeFromIndex_nodup hnd)

theorem indexPage_avg (w : Wiki) (t c : String) :
    (indexPage w t c).avgDocLength = avgOf (indexPage w t c).docLengths := by
  have hne : (indexPage w t c).docLengths ≠ [] := by
    rw [indexPage_docLengths]
    simp
  show (if (removeFromIndex w t).docLengths ++ [(t, (tokenize c).length)] = []
      then (removeFromIndex w t).avgDocLength
      else avgOf ((removeFromIndex w t).docLengths ++ [(t, (tokenize c).length)])) = _
  rw [if_neg (by simp), indexPage_docLengths]
/-! ### The index/content coherence invariant -/

theorem mem_insertTitle {ts : List String} {t s : String} :
    s ∈ insertTitle ts t ↔ s ∈ ts ∨ s = t := by
  rw [insertTitle]
  by_cases h : t ∈ ts
  · rw [if_pos h]
    constructor
    · exact Or.inl
    · rintro (hs | rfl) <;> [exact hs; exact h]
  · rw [if_neg h]
    simp

theorem self_mem_insertTitle (ts : List String) (t : String) : t ∈ insertTitle ts t :=
  mem_insertTitle.mpr (Or.inr rfl)

theorem insertTitle_nodup {ts : List String} {t : String} (h : ts.Nodup) :
    (insertTitle ts t).Nodup := by
  rw [insertTitle]
  by_cases hm : t ∈ ts
  · rwa [if_pos hm]
  · rw [if_neg hm]
    refine h.append (List.nodup_singleton t) ?_
    intro a ha hb
    rw [List.mem_singleton] at hb
    subst hb
    exact hm ha

theorem insertTitle_ne_nil (ts : List String) (t : String) : insertTitle ts t ≠ [] := by
  rw [insertTitle]
  by_cases hm : t ∈ ts
  · rw [if_pos hm]
    exact List.ne_nil_of_mem hm
  · rw [if_neg hm]
    simp

theorem mem_filter_ne {ts : List String} {s t : String} :
    s ∈ ts.filter (fun x => decide (x ≠ t)) ↔ s ∈ ts ∧ s ≠ t := by
  constructor
  · intro h
    have h2 := List.mem_filter.mp h
    exact ⟨h2.1, by simpa using h2.2⟩
  · intro h
    exact List.mem_filter.mpr ⟨h.1, by simpa using h.2⟩

theorem idx_removeFromIndex_cases {w : Wiki} {t tok : String} {ts : List String}
    (hnd : (akeys w.invertedIndex).Nodup)
    (h : alookup tok (removeFromIndex w t).invertedIndex = some ts) :
    ∃ ts0, alookup tok w.invertedIndex = some ts0 ∧
      ts = ts0.filter (fun s => decide (s ≠ t)) ∧ ts ≠ [] := by
  rw [alookup_idx_removeFromIndex _ _ _ hnd] at h
  cases h0 : alookup tok w.invertedIndex with
  | none => rw [h0] at h; simp at h
  | some ts0 =>
    rw [h0, Option.some_bind] at h
    by_cases he : ts0.filter (fun s => decide (s ≠ t)) = []
    · rw [if_pos he] at h
      cases h
    · rw [if_neg he] at h
      obtain rfl := (Option.some_injective _ h).symm
      exact ⟨ts0, rfl, rfl, he⟩

theorem idx_removeFromIndex_of_mem {w : Wiki} {t tok s : String} {ts0 : List String}
    (hnd : (akeys w.invertedIndex).Nodup)
    (h0 : alookup tok w.invertedIndex = some ts0) (hs : s ∈ ts0) (hst : s ≠ t) :
    ∃ ts, alookup tok (removeFromIndex w t).invertedIndex = some ts ∧ s ∈ ts := by
  have hmem : s ∈ ts0.filter (fun x => decide (x ≠ t)) := mem_filter_ne.mpr ⟨hs, hst⟩
  have hne : ts0.filter (fun x => decide (x ≠ t)) ≠ [] := List.ne_nil_of_mem hmem
  refine ⟨ts0.filter (fun x => decide (x ≠ t)), ?_, hmem⟩
  rw [alookup_idx_removeFromIndex _ _ _ hnd, h0, Option.some_bind, if_neg hne]

/-- The coherence invariant of the search index (spec §3, "Index/content
coherence"): posting lists hold exactly the live pages whose current
content holds the token, no posting list is empty, the length records
match the current contents, and the stored average is the mean. -/
structure Coherent (w : Wiki) : Prop where
  pagesNodup : (akeys w.pages).Nodup
  dlNodup : (akeys w.docLengths).Nodup
  idxNodup : (akeys w.invertedIndex).Nodup
  dlSpec : ∀ t, alookup t w.docLengths
    = (alookup t w.pages).map fun p => (tokenize p.content).length
  postNodup : ∀ tok ts, alookup tok w.invertedIndex = some ts → ts.Nodup
  postNonempty : ∀ tok ts, alookup tok w.invertedIndex = some ts → ts ≠ []
  postSound : ∀ tok ts t, alookup tok w.invertedIndex = some ts → t ∈ ts →
    ∃ p, alookup t w.pages = some p ∧ tok ∈ tokenize p.content
  postComplete : ∀ t p tok, alookup t w.pages = some p → tok ∈ tokenize p.content →
    ∃ ts, alookup tok w.invertedIndex = some ts ∧ t ∈ ts
  avgSpec : w.avgDocLength = if w.docLengths = [] then 0 else avgOf w.docLengths

theorem coherent_empty : Coherent emptyWiki := by
  constructor <;> simp [emptyWiki, akeys, alookup]

/-- Re-indexing a page `t` to content `c` restores coherence, provided
the new page table is keyed without duplicates, holds `t` with content
`c`, and agrees with the old table on every other title's content. -/
theorem coherent_indexPage (w : Wiki) (pages' : List (String × WikiPage)) (t c : String)
    (hco : Coherent w)
    (hnd : (akeys pages').Nodup)
    (ht : ∃ p', alookup t pages' = some p' ∧ p'.content = c)
    (hother : ∀ s, s ≠ t → (alookup s pages').map WikiPage.content
        = (alookup s w.pages).map WikiPage.content) :
    Coherent (indexPage { w with pages := pages' } t c) := by
  obtain ⟨p', hp', hp'c⟩ := ht
  have hlen : ∀ (o : Option WikiPage), (o.map fun p => (tokenize p.content).length)
      = (o.map WikiPage.content).map fun c0 => (tokenize c0).length := by
    intro o
    cases o <;> rfl
  set w0 : Wiki := { w with pages := pages' } with hw0
  have hpg : (indexPage w0 t c).pages = pages' := rfl
  have hw0idx : w0.invertedIndex = w.invertedIndex := rfl
  have hw0dl : w0.docLengths = w.docLengths := rfl
  have hidxnd : (akeys w0.invertedIndex).Nodup := hco.idxNodup
  constructor
  case pagesNodup => rw [hpg]; exact hnd
  case dlNodup =>
    rw [indexPage_docLengths, akeys_append]
    refine List.Nodup.append ?_ (by simp [akeys]) ?_
    · rw [removeFromIndex_docLengths, hw0dl]
      exact nodup_akeys_filter hco.dlNodup
    · intro a ha hb
      simp only [akeys, List.map_cons, List.map_nil, List.mem_singleton] at hb
      subst hb
      rw [removeFromIndex_docLengths, hw0dl] at ha
      exact (mem_akeys_filterKey.mp ha).2 rfl
  case idxNodup =>
    exact akeys_idx_indexPage_nodup hidxnd
  case dlSpec =>
    intro s
    rw [hpg, alookup_docLengths_indexPage]
    by_cases hst : s = t
    · subst hst
      rw [if_pos rfl, hp']
      simp [hp'c]
    · rw [if_neg hst, hw0dl, hco.dlSpec s, hlen, hlen, hother s hst]
  case postNodup =>
    intro tok ts h
    rw [alookup_idx_indexPage w0 t c _] at h
    by_cases hmem : tok ∈ (tokenize c).dedup
    · rw [if_pos hmem] at h
      obtain rfl := (Option.some_injective _ h).symm
      apply insertTitle_nodup
      cases hpr : alookup tok (removeFromIndex w0 t).invertedIndex with
      | none => simp
      | some ts1 =>
        obtain ⟨ts0, h00, hfil, _⟩ := idx_removeFromIndex_cases hidxnd hpr
        simp only [Option.getD_some]
        rw [hfil]
        exact (hco.postNodup tok ts0 h00).filter _
    · rw [if_neg hmem] at h
      obtain ⟨ts0, h00, hfil, _⟩ := idx_removeFromIndex_cases hidxnd h
      rw [hfil]
      exact (hco.postNodup tok ts0 h00).filter _
  case postNonempty =>
    intro tok ts h
    rw [alookup_idx_indexPage w0 t c _] at h
    by_cases hmem : tok ∈ (tokenize c).dedup
    · rw [if_pos hmem] at h
      obtain rfl := (Option.some_injective _ h).symm
      exact insertTitle_ne_nil _ _
    · rw [if_neg hmem] at h
      obtain ⟨ts0, _, _, hne⟩ := idx_removeFromIndex_cases hidxnd h
      exact hne
  case postSound =>
    intro tok ts s h hs
    rw [hpg]
    rw [alookup_idx_indexPage w0 t c _] at h
    have hfromOld : ∀ ts1, alookup tok (removeFromIndex w0 t).invertedIndex = some ts1 →
        s ∈ ts1 → ∃ p, alookup s pages' = some p ∧ tok ∈ tokenize p.content := by
      intro ts1 hpr hs1
      obtain ⟨ts0, h0, hfil, _⟩ := idx_removeFromIndex_cases hidxnd hpr
      rw [hfil] at hs1
      obtain ⟨hs0, hst⟩ := mem_filter_ne.mp hs1
      obtain ⟨p, hp, htok⟩ := hco.postSound tok ts0 s h0 hs0
      have hoth := hother s hst
      rw [hp] at hoth
      cases hlp : alookup s pages' with
      | none => rw [hlp] at hoth; cases hoth
      | some p2 =>
        rw [hlp] at hoth
        refine ⟨p2, rfl, ?_⟩
        have hc2 : p2.content = p.content := by simpa using hoth
        rw [hc2]
        exact htok
    by_cases hmem : tok ∈ (tokenize c).dedup
    · rw [if_pos hmem] at h
      obtain rfl := (Option.some_injective _ h).symm
      rcases mem_insertTitle.mp hs with hsp | rfl
      · cases hpr : alookup tok (removeFromIndex w0 t).invertedIndex with
        | none => rw [hpr] at hsp; simp at hsp
        | some ts1 =>
          rw [hpr] at hsp
          simp only [Option.getD_some] at hsp
          exact hfromOld ts1 hpr hsp
      · exact ⟨p', hp', by rw [hp'c]; exact List.mem_dedup.mp hmem⟩
    · rw [if_neg hmem] at h
      exact hfromOld ts h hs
  case postComplete =>
    intro s p2 tok hlp htok
    rw [hpg] at hlp
    by_cases hst : s = t
    · subst hst
      rw [hp'] at hlp
      obtain rfl := (Option.some_injective _ hlp).symm
      have hmem : tok ∈ (tokenize c).dedup :=
        List.mem_dedup.mpr (by rw [← hp'c]; exact htok)
      refine ⟨insertTitle ((alookup tok (removeFromIndex w0 s).invertedIndex).getD []) s,
        ?_, ?_⟩
      · rw [alookup_idx_indexPage w0 s c _, if_pos hmem]
      · exact self_mem_insertTitle _ _
    · have hoth := hother s hst
      rw [hlp] at hoth
      cases hlo : alookup s w.pages with
      | none => rw [hlo] at hoth; cases hoth
      | some p =>
        rw [hlo] at hoth
        have hc2 : p2.content = p.content := by simpa using hoth
        obtain ⟨ts0, h0, hs0⟩ := hco.postComplete s p tok hlo (by rw [← hc2]; exact htok)
        obtain ⟨ts1, hpr, hs1⟩ := idx_removeFromIndex_of_mem hidxnd h0 hs0 hst
        rw [alookup_idx_indexPage w0 t c _]
        by_cases hmem : tok ∈ (tokenize c).dedup
        · rw [if_pos hmem, hpr]
          exact ⟨_, rfl, mem_insertTitle.mpr (Or.inl hs1)⟩
        · rw [if_neg hmem]
          exact ⟨ts1, hpr, hs1⟩
  case avgSpec =>
    rw [indexPage_avg, if_neg (by rw [indexPage_docLengths]; simp)]

theorem alookup_append_single {α : Type} {s t : String} (v : α) (l : List (String × α))
    (h : s ≠ t) : alookup s (l ++ [(t, v)]) = alookup s l := by
  induction l with
  | nil => simp [alookup, show t ≠ s from fun hh => h hh.symm]
  | cons p ps ih =>
    rw [List.cons_append, alookup, alookup]
    by_cases hp : p.1 = s
    · rw [if_pos hp, if_pos hp]
    · rw [if_neg hp, if_neg hp]
      exact ih

/-- A pages transformation that leaves every content untouched (link
addition, link stripping) preserves coherence. -/
theorem coherent_mapPages (w : Wiki) (f : String → WikiPage → WikiPage)
    (hcontent : ∀ k p, (f k p).content = p.content) (hco : Coherent w) :
    Coherent { w with pages := w.pages.map fun p => (p.1, f p.1 p.2) } := by
  have hlk : ∀ s, alookup s (w.pages.map fun p => (p.1, f p.1 p.2))
      = (alookup s w.pages).map (f s) := fun s => alookup_mapVal f s w.pages
  constructor
  case pagesNodup =>
    rw [show akeys ((w.pages.map fun p => (p.1, f p.1 p.2))) = akeys w.pages from
      akeys_mapVal f w.pages]
    exact hco.pagesNodup
  case dlNodup => exact hco.dlNodup
  case idxNodup => exact hco.idxNodup
  case dlSpec =>
    intro s
    rw [hco.dlSpec s]
    show _ = (alookup s (w.pages.map fun p => (p.1, f p.1 p.2))).map _
    rw [hlk s]
    cases alookup s w.pages <;> simp [hcontent]
  case postNodup => exact hco.postNodup
  case postNonempty => exact hco.postNonempty
  case postSound =>
    intro tok ts s h hs
    obtain ⟨p, hp, htok⟩ := hco.postSound tok ts s h hs
    refine ⟨f s p, ?_, ?_⟩
    · show alookup s (w.pages.map fun p => (p.1, f p.1 p.2)) = _
      rw [hlk s, hp]
      rfl
    · rw [hcontent s p]
      exact htok
  case postComplete =>
    intro s p2 tok hlp htok
    have hlp2 : (alookup s w.pages).map (f s) = some p2 := (hlk s).symm.trans hlp
    show ∃ ts, alookup tok w.invertedIndex = some ts ∧ s ∈ ts
    cases hlo : alookup s w.pages with
    | none => rw [hlo] at hlp2; cases hlp2
    | some p =>
      rw [hlo] at hlp2
      obtain rfl := (Option.some_injective _ hlp2).symm
      exact hco.postComplete s p tok hlo (by rw [← hcontent s p]; exact htok)
  case avgSpec => exact hco.avgSpec

/-- Removing a page from the page table and from the index together
preserves coherence. -/
theorem coherent_deleteCore (w : Wiki) (t : String) (hco : Coherent w) :
    Coherent { removeFromIndex w t with
      pages := w.pages.filter fun p => decide (p.1 ≠ t) } := by
  have hlk : ∀ s, alookup s (w.pages.filter fun p => decide (p.1 ≠ t))
      = if s = t then none else alookup s w.pages := fun s => alookup_filterKey s t w.pages
  constructor
  case pagesNodup => exact nodup_akeys_filter hco.pagesNodup
  case dlNodup =>
    rw [removeFromIndex_docLengths]
    exact nodup_akeys_filter hco.dlNodup
  case idxNodup => exact akeys_idx_removeFromIndex_nodup hco.idxNodup
  case dlSpec =>
    intro s
    show alookup s (removeFromIndex w t).docLengths = _
    rw [alookup_docLengths_removeFromIndex, hlk s]
    by_cases hst : s = t
    · simp [hst]
    · rw [if_neg hst, if_neg hst, hco.dlSpec s]
  case postNodup =>
    intro tok ts h
    obtain ⟨ts0, h0, hfil, _⟩ := idx_removeFromIndex_cases hco.idxNodup h
    rw [hfil]
    exact (hco.postNodup tok ts0 h0).filter _
  case postNonempty =>
    intro tok ts h
    obtain ⟨_, _, _, hne⟩ := idx_removeFromIndex_cases hco.idxNodup h
    exact hne
  case postSound =>
    intro tok ts s h hs
    obtain ⟨ts0, h0, hfil, _⟩ := idx_removeFromIndex_cases hco.idxNodup h
    rw [hfil] at hs
    obtain ⟨hs0, hst⟩ := mem_filter_ne.mp hs
    obtain ⟨p, hp, htok⟩ := hco.postSound tok ts0 s h0 hs0
    refine ⟨p, ?_, htok⟩
    show alookup s (w.pages.filter fun p => decide (p.1 ≠ t)) = some p
    rw [hlk s, if_neg hst]
    exact hp
  case postComplete =>
    intro s p2 tok hlp htok
    have hlp2 : (if s = t then none else alookup s w.pages) = some p2 :=
      (hlk s).symm.trans hlp
    show ∃ ts, alookup tok (removeFromIndex w t).invertedIndex = some ts ∧ s ∈ ts
    by_cases hst : s = t
    · rw [if_pos hst] at hlp2
      cases hlp2
    · rw [if_neg hst] at hlp2
      obtain ⟨ts0, h0, hs0⟩ := hco.postComplete s p2 tok hlp2 htok
      exact idx_removeFromIndex_of_mem hco.idxNodup h0 hs0 hst
  case avgSpec => exact removeFromIndex_avg w t

theorem coherent_create {w : Wiki} {t c : String} {tg : Option (List String)}
    {p : WikiPage} {w' : Wiki} (hco : Coherent w)
    (h : create w t c tg = Except.ok (p, w')) : Coherent w' := by
  simp only [create] at h
  by_cases hs : (alookup t w.pages).isSome
  · rw [if_pos hs] at h
    cases h
  · rw [if_neg hs] at h
    have hnone : alookup t w.pages = none := Option.not_isSome_iff_eq_none.mp hs
    injection h with h1
    injection h1 with h2 h3
    subst h2
    subst h3
    apply coherent_indexPage w _ t c hco
    · rw [akeys_append]
      refine hco.pagesNodup.append (by simp [akeys]) ?_
      intro a ha hb
      simp only [akeys, List.map_cons, List.map_nil, List.mem_singleton] at hb
      subst hb
      exact (alookup_eq_none_iff.mp hnone) ha
    · refine ⟨{ title := t, content := c, tags := (tg.getD []).dedup, links := [], created_at := w.iteration, updated_at := w.iteration }, ?_, rfl⟩
      rw [alookup_append_right hnone]
      simp [alookup]
    · intro s hst
      rw [alookup_append_single _ _ hst]

theorem alookup_replaceVal_self {α : Type} {t : String} {l : List (String × α)} (v : α)
    (h : (alookup t l).isSome) : alookup t (replaceVal l t v) = some v := by
  rw [alookup_replaceVal]
  obtain ⟨x, hx⟩ := Option.isSome_iff_exists.mp h
  rw [hx]
  simp

theorem coherent_update {w : Wiki} {t : String} {c a : Option String}
    {tg : Option (List String)} {p : WikiPage} {w' : Wiki} (hco : Coherent w)
    (h : update w t c a tg = Except.ok (p, w')) : Coherent w' := by
  simp only [update] at h
  cases hl : alookup t w.pages with
  | none => rw [hl] at h; cases h
  | some page =>
    rw [hl] at h
    injection h with h1
    injection h1 with h2 h3
    subst h2
    subst h3
    apply coherent_indexPage w _ t _ hco
    · rw [akeys_replaceVal]
      exact hco.pagesNodup
    · exact ⟨_, alookup_replaceVal_self _ (by rw [hl]; rfl), rfl⟩
    · intro s hst
      rw [alookup_replaceVal]
      cases alookup s w.pages <;> simp [hst]

theorem coherent_delete {w : Wiki} {t : String} {w' : Wiki} (hco : Coherent w)
    (h : delete w t = Except.ok w') : Coherent w' := by
  simp only [delete] at h
  by_cases hs : (alookup t w.pages).isSome
  · rw [if_pos hs] at h
    injection h with h1
    subst h1
    have hS : Coherent { w with pages := w.pages.map fun p =>
        (p.1, { p.2 with links := p.2.links.filter fun l => decide (l ≠ t) }) } :=
      coherent_mapPages w
        (fun _ q => { q with links := q.links.filter fun l => decide (l ≠ t) })
        (fun _ _ => rfl) hco
    exact coherent_deleteCore _ t hS
  · rw [if_neg hs] at h
    cases h

theorem coherent_link {w : Wiki} {a c : String} {w' : Wiki} (hco : Coherent w)
    (h : link w a c = Except.ok w') : Coherent w' := by
  simp only [link] at h
  by_cases h1 : (alookup a w.pages).isSome
  · rw [if_pos h1] at h
    by_cases h2 : (alookup c w.pages).isSome
    · rw [if_pos h2] at h
      injection h with h3
      subst h3
      exact coherent_mapPages w
        (fun k q => if k = a then { q with links := insertTitle q.links c } else q)
        (fun k q => by by_cases hk : k = a <;> simp [hk]) hco
    · rw [if_neg h2] at h
      cases h
  · rw [if_neg h1] at h
    cases h

theorem coherent_step {w w' : Wiki} (h : Step w w') (hco : Coherent w) : Coherent w' := by
  cases h with
  | createStep t c tg p w2 hc => exact coherent_create hco hc
  | updateStep t c a tg p w2 hc => exact coherent_update hco hc
  | deleteStep t w2 hc => exact coherent_delete hco hc
  | linkStep a c w2 hc => exact coherent_link hco hc
  | iterStep n => exact ⟨hco.pagesNodup, hco.dlNodup, hco.idxNodup, hco.dlSpec,
      hco.postNodup, hco.postNonempty, hco.postSound, hco.postComplete, hco.avgSpec⟩

theorem reachable_coherent {w : Wiki} (h : Reachable w) : Coherent w := by
  induction h with
  | refl => exact coherent_empty
  | tail h1 h2 ih => exact coherent_step h2 ih

/-! ### Referential integrity of links -/

theorem mem_akeys_mapVal {α β : Type} {k : String} (f : String → α → β)
    (l : List (String × α)) :
    k ∈ akeys (l.map fun p => (p.1, f p.1 p.2)) ↔ k ∈ akeys l := by
  rw [akeys_mapVal]

theorem alookup_append_cases {α : Type} {s : String} {l1 l2 : List (String × α)} {v : α}
    (h : alookup s (l1 ++ l2) = some v) :
    alookup s l1 = some v ∨ (alookup s l1 = none ∧ alookup s l2 = some v) := by
  cases hl : alookup s l1 with
  | some x =>
    exact Or.inl ((alookup_append_left hl).symm.trans h)
  | none =>
    exact Or.inr ⟨rfl, (alookup_append_right hl).symm.trans h⟩

/-- Referential integrity (spec §3): no page ever links to a title
absent from the store. -/
def LinksClosed (w : Wiki) : Prop :=
  ∀ t p, alookup t w.pages = some p → ∀ l ∈ p.links, l ∈ akeys w.pages

theorem linksClosed_empty : LinksClosed emptyWiki := by
  intro t p h
  simp [alookup, emptyWiki] at h

theorem linksClosed_create {w : Wiki} {t c : String} {tg : Option (List String)}
    {p : WikiPage} {w' : Wiki} (hl : LinksClosed w)
    (h : create w t c tg = Except.ok (p, w')) : LinksClosed w' := by
  simp only [create] at h
  by_cases hs : (alookup t w.pages).isSome
  · rw [if_pos hs] at h
    cases h
  · rw [if_neg hs] at h
    injection h with h1
    injection h1 with h2 h3
    subst h2
    subst h3
    intro s q hq l hlmem
    show l ∈ akeys (w.pages ++ _)
    rw [akeys_append]
    have hq2 : alookup s (w.pages ++ [(t, _)]) = some q := hq
    rcases alookup_append_cases hq2 with hc | ⟨_, hc⟩
    · exact List.mem_append.mpr (Or.inl (hl s q hc l hlmem))
    · rw [alookup] at hc
      by_cases hts : t = s
      · rw [if_pos hts] at hc
        obtain rfl := (Option.some_injective _ hc).symm
        cases hlmem
      · rw [if_neg hts] at hc
        cases hc

theorem linksClosed_update {w : Wiki} {t : String} {c a : Option String}
    {tg : Option (List String)} {p : WikiPage} {w' : Wiki} (hl : LinksClosed w)
    (h : update w t c a tg = Except.ok (p, w')) : LinksClosed w' := by
  simp only [update] at h
  cases hlk : alookup t w.pages with
  | none => rw [hlk] at h; cases h
  | some page =>
    rw [hlk] at h
    injection h with h1
    injection h1 with h2 h3
    subst h2
    subst h3
    intro s q hq l hlmem
    show l ∈ akeys (replaceVal w.pages t _)
    rw [akeys_replaceVal]
    have hq2 : (alookup s w.pages).map _ = some q := (alookup_replaceVal s t _ w.pages).symm.trans hq
    cases hlo : alookup s w.pages with
    | none => rw [hlo] at hq2; cases hq2
    | some q0 =>
      rw [hlo] at hq2
      obtain rfl := (Option.some_injective _ hq2).symm
      by_cases hst : s = t
      · subst hst
        obtain rfl := Option.some_injective _ ((hlk.symm.trans hlo))
        simp only [if_pos rfl] at hlmem ⊢
        exact hl s page hlo l hlmem
      · simp only [if_neg hst] at hlmem ⊢
        exact hl s q0 hlo l hlmem

theorem linksClosed_delete {w : Wiki} {t : String} {w' : Wiki} (hl : LinksClosed w)
    (h : delete w t = Except.ok w') : LinksClosed w' := by
  simp only [delete] at h
  by_cases hs : (alookup t w.pages).isSome
  · rw [if_pos hs] at h
    injection h with h1
    subst h1
    intro s q hq l hlmem
    have hq2 : (if s = t then none else alookup s (w.pages.map fun p =>
        (p.1, { p.2 with links := p.2.links.filter fun x => decide (x ≠ t) }))) = some q :=
      (alookup_filterKey s t _).symm.trans hq
    by_cases hst : s = t
    · rw [if_pos hst] at hq2
      cases hq2
    · rw [if_neg hst] at hq2
      have hq3 : (alookup s w.pages).map
          (fun p => { p with links := p.links.filter fun x => decide (x ≠ t) }) = some q :=
        (alookup_mapVal (fun _ p => { p with links := p.links.filter fun x => decide (x ≠ t) })
          s w.pages).symm.trans hq2
      cases hlo : alookup s w.pages with
      | none => rw [hlo] at hq3; cases hq3
      | some q0 =>
        rw [hlo] at hq3
        obtain rfl := (Option.some_injective _ hq3).symm
        simp only at hlmem
        obtain ⟨hl0, hlt⟩ := mem_filter_ne.mp hlmem
        have hm2 : l ∈ akeys (List.map (fun p =>
            (p.1, { p.2 with links := p.2.links.filter fun x => decide (x ≠ t) })) w.pages) :=
          (mem_akeys_mapVal
            (fun _ p => { p with links := p.links.filter fun x => decide (x ≠ t) })
            w.pages).mpr (hl s q0 hlo l hl0)
        exact mem_akeys_filterKey.mpr ⟨hm2, hlt⟩
  · rw [if_neg hs] at h
    cases h

theorem linksClosed_link {w : Wiki} {a b : String} {w' : Wiki} (hl : LinksClosed w)
    (h : link w a b = Except.ok w') : LinksClosed w' := by
  simp only [link] at h
  by_cases h1 : (alookup a w.pages).isSome
  · rw [if_pos h1] at h
    by_cases h2 : (alookup b w.pages).isSome
    · rw [if_pos h2] at h
      injection h with h3
      subst h3
      intro s q hq l hlmem
      have hq2 : (alookup s w.pages).map (fun p => if s = a then
          { p with links := insertTitle p.links b } else p) = some q :=
        (alookup_mapVal (fun k p => if k = a then
          { p with links := insertTitle p.links b } else p) s w.pages).symm.trans hq
      have hgoal : l ∈ akeys w.pages → l ∈ akeys (List.map (fun p => (p.1, if p.1 = a then
          { p.2 with links := insertTitle p.2.links b } else p.2)) w.pages) := fun hm =>
        (mem_akeys_mapVal (fun k p => if k = a then
          { p with links := insertTitle p.links b } else p) w.pages).mpr hm
      apply hgoal
      cases hlo : alookup s w.pages with
      | none => rw [hlo] at hq2; cases hq2
      | some q0 =>
        rw [hlo] at hq2
        obtain rfl := (Option.some_injective _ hq2).symm
        simp only at hlmem
        by_cases hsa : s = a
        · rw [if_pos hsa] at hlmem
          simp only at hlmem
          rcases mem_insertTitle.mp hlmem with hin | rfl
          · exact hl s q0 hlo l hin
          · exact alookup_isSome_iff.mp h2
        · rw [if_neg hsa] at hlmem
          exact hl s q0 hlo l hlmem
    · rw [if_neg h2] at h
      cases h
  · rw [if_neg h1] at h
    cases h

theorem linksClosed_step {w w' : Wiki} (h : Step w w') (hl : LinksClosed w) :
    LinksClosed w' := by
  cases h with
  | createStep t c tg p w2 hc => exact linksClosed_create hl hc
  | updateStep t c a tg p w2 hc => exact linksClosed_update hl hc
  | deleteStep t w2 hc => exact linksClosed_delete hl hc
  | linkStep a c w2 hc => exact linksClosed_link hl hc
  | iterStep n => exact hl

theorem reachable_linksClosed {w : Wiki} (h : Reachable w) : LinksClosed w := by
  induction h with
  | refl => exact linksClosed_empty
  | tail h1 h2 ih => exact linksClosed_step h2 ih

/-! ### Operation-level characterizations -/

theorem create_ok_parts {w : Wiki} {t c : String} {tg : Option (List String)}
    {p : WikiPage} {w' : Wiki} (h : create w t c tg = Except.ok (p, w')) :
    alookup t w.pages = none ∧ w'.pages = w.pages ++ [(t, p)] ∧
    p.title = t ∧ p.content = c ∧ p.created_at = w.iteration ∧
    p.updated_at = w.iteration ∧ w'.iteration = w.iteration := by
  simp only [create] at h
  by_cases hs : (alookup t w.pages).isSome
  · rw [if_pos hs] at h
    cases h
  · rw [if_neg hs] at h
    injection h with h1
    injection h1 with h2 h3
    subst h2
    subst h3
    exact ⟨Option.not_isSome_iff_eq_none.mp hs, rfl, rfl, rfl, rfl, rfl, rfl⟩

theorem create_duplicate {w : Wiki} {t : String} (c : String) (tg : Option (List String))
    (h : (alookup t w.pages).isSome) :
    create w t c tg = Except.error WikiError.duplicateTitle := by
  rw [create, if_pos h]

theorem update_ok_parts {w : Wiki} {t : String} {c a : Option String}
    {tg : Option (List String)} {p : WikiPage} {w' : Wiki}
    (h : update w t c a tg = Except.ok (p, w')) :
    ∃ page, alookup t w.pages = some page ∧
      p.created_at = page.created_at ∧ p.updated_at = w.iteration ∧
      p.links = page.links ∧ p.title = page.title ∧
      w'.pages = replaceVal w.pages t p ∧ w'.iteration = w.iteration ∧
      (∀ c0, c = some c0 → p.content = c0) ∧
      (c = none → ∀ a0, a = some a0 → p.content = page.content ++ a0) ∧
      (c = none → a = none → p.content = page.content) ∧
      (∀ tg0, tg = some tg0 → p.tags = tg0.dedup) ∧
      (tg = none → p.tags = page.tags) := by
  simp only [update] at h
  cases hl : alookup t w.pages with
  | none => rw [hl] at h; cases h
  | some page =>
    rw [hl] at h
    injection h with h1
    injection h1 with h2 h3
    subst h2
    subst h3
    refine ⟨page, rfl, rfl, rfl, rfl, rfl, rfl, rfl, ?_, ?_, ?_, ?_, ?_⟩
    · intro c0 hc
      subst hc
      rfl
    · intro hc a0 ha
      subst hc
      subst ha
      rfl
    · intro hc ha
      subst hc
      subst ha
      rfl
    · intro tg0 htg
      subst htg
      rfl
    · intro htg
      subst htg
      rfl

theorem delete_ok_parts {w : Wiki} {t : String} {w' : Wiki}
    (h : delete w t = Except.ok w') :
    (alookup t w.pages).isSome ∧
    (∀ s, alookup s w'.pages = if s = t then none else (alookup s w.pages).map
      fun q => { q with links := q.links.filter fun l => decide (l ≠ t) }) := by
  simp only [delete] at h
  by_cases hs : (alookup t w.pages).isSome
  · rw [if_pos hs] at h
    injection h with h1
    subst h1
    refine ⟨hs, fun s => ?_⟩
    have hstep : alookup s ((w.pages.map fun p =>
          (p.1, { p.2 with links := p.2.links.filter fun l => decide (l ≠ t) })).filter
            fun p => decide (p.1 ≠ t)) =
        if s = t then none else alookup s (w.pages.map fun p =>
          (p.1, { p.2 with links := p.2.links.filter fun l => decide (l ≠ t) })) :=
      alookup_filterKey s t _
    refine hstep.trans ?_
    by_cases hst : s = t
    · rw [if_pos hst, if_pos hst]
    · rw [if_neg hst, if_neg hst]
      exact alookup_mapVal
        (fun _ q => { q with links := q.links.filter fun l => decide (l ≠ t) }) s w.pages
  · rw [if_neg hs] at h
    cases h

theorem link_ok_parts {w : Wiki} {a b : String} {w' : Wiki}
    (h : link w a b = Except.ok w') :
    (alookup a w.pages).isSome ∧ (alookup b w.pages).isSome ∧
    (∀ s, alookup s w'.pages = (alookup s w.pages).map
      fun q => if s = a then { q with links := insertTitle q.links b } else q) ∧
    w'.iteration = w.iteration ∧ w'.invertedIndex = w.invertedIndex ∧
    w'.docLengths = w.docLengths ∧ w'.avgDocLength = w.avgDocLength := by
  simp only [link] at h
  by_cases h1 : (alookup a w.pages).isSome
  · rw [if_pos h1] at h
    by_cases h2 : (alookup b w.pages).isSome
    · rw [if_pos h2] at h
      injection h with h3
      subst h3
      exact ⟨h1, h2, fun s => alookup_mapVal (fun k q => if k = a then
        { q with links := insertTitle q.links b } else q) s w.pages, rfl, rfl, rfl, rfl⟩
    · rw [if_neg h2] at h
      cases h
  · rw [if_neg h1] at h
    cases h

theorem get_absent {w : Wiki} {t : String} (h : alookup t w.pages = none) :
    get w t = Except.error WikiError.notFound := by
  show (match alookup t w.pages with
    | none => Except.error WikiError.notFound
    | some page => Except.ok page) = Except.error WikiError.notFound
  rw [h]

theorem get_present {w : Wiki} {t : String} {p : WikiPage}
    (h : alookup t w.pages = some p) : get w t = Except.ok p := by
  show (match alookup t w.pages with
    | none => Except.error WikiError.notFound
    | some page => Except.ok page) = Except.ok p
  rw [h]

theorem update_absent {w : Wiki} {t : String} (c a : Option String)
    (tg : Option (List String)) (h : alookup t w.pages = none) :
    update w t c a tg = Except.error WikiError.notFound := by
  rw [update, h]

theorem delete_absent {w : Wiki} {t : String} (h : alookup t w.pages = none) :
    delete w t = Except.error WikiError.notFound := by
  rw [delete, if_neg (by rw [h]; simp)]

theorem link_absent_left {w : Wiki} {t : String} (x : String)
    (h : alookup t w.pages = none) : link w t x = Except.error WikiError.notFound := by
  rw [link, if_neg (by rw [h]; simp)]

theorem link_absent_right {w : Wiki} {t : String} (x : String)
    (h : alookup t w.pages = none) : link w x t = Except.error WikiError.notFound := by
  rw [link]
  by_cases h1 : (alookup x w.pages).isSome
  · rw [if_pos h1, if_neg (by rw [h]; simp)]
  · rw [if_neg h1]

theorem backlinks_absent {w : Wiki} {t : String} (hnd : (akeys w.pages).Nodup)
    (hlc : LinksClosed w) (h : alookup t w.pages = none) :
    backlinks w t = Except.ok [] := by
  have hfil : (w.pages.filter fun p => decide (t ∈ p.2.links)) = [] := by
    rw [List.filter_eq_nil_iff]
    intro p hp
    simp only [decide_eq_true_eq]
    intro hmem
    have hmk : t ∈ akeys w.pages :=
      hlc p.1 p.2 (alookup_of_mem hnd hp) t hmem
    rw [alookup_eq_none_iff] at h
    exact h hmk
  show Except.ok _ = Except.ok []
  rw [hfil]
  rfl

/-! ### Characterization of the accumulated BM25 scores -/

/-- The running score of a title in the accumulator dictionary. -/
noncomputable def scoreOf (sc : List (String × ℝ)) (t : String) : ℝ :=
  (alookup t sc).getD 0

/-- Per-token score summand of the loop of wiki.py lines 180-192. -/
noncomputable def bm25TermOf (w : Wiki) (term t : String) : ℝ :=
  match alookup term w.invertedIndex with
  | none => 0
  | some ds => (ds.count t : ℝ) * contrib w term t

/-- Total score accumulated for a title: sum over all query token
occurrences (the loop runs over `tokens`, duplicates included). -/
noncomputable def bm25Of (w : Wiki) (tokens : List String) (t : String) : ℝ :=
  (tokens.map fun term => bm25TermOf w term t).sum

theorem bm25TermOf_none {w : Wiki} {term t : String}
    (h : alookup term w.invertedIndex = none) : bm25TermOf w term t = 0 := by
  simp only [bm25TermOf, h]

theorem bm25TermOf_some {w : Wiki} {term t : String} {ds : List String}
    (h : alookup term w.invertedIndex = some ds) :
    bm25TermOf w term t = (ds.count t : ℝ) * contrib w term t := by
  simp only [bm25TermOf, h]

theorem bm25Of_cons (w : Wiki) (term : String) (rest : List String) (t : String) :
    bm25Of w (term :: rest) t = bm25TermOf w term t + bm25Of w rest t := by
  simp [bm25Of]

theorem scoreOf_addScore (sc : List (String × ℝ)) (t' t : String) (v : ℝ) :
    scoreOf (addScore sc t' v) t = scoreOf sc t + if t = t' then v else 0 := by
  rw [addScore]
  by_cases hs : (alookup t' sc).isSome
  · rw [if_pos hs]
    obtain ⟨x, hx⟩ := Option.isSome_iff_exists.mp hs
    rw [scoreOf, alookup_mapVal (fun k y => if k = t' then y + v else y) t sc]
    by_cases ht : t = t'
    · subst ht
      rw [hx]
      simp [scoreOf, hx]
    · rw [scoreOf]
      cases hl : alookup t sc <;> simp [ht, hl]
  · rw [if_neg hs]
    have hnone : alookup t' sc = none := Option.not_isSome_iff_eq_none.mp hs
    by_cases ht : t = t'
    · subst ht
      rw [scoreOf, scoreOf, alookup_append_right hnone, hnone]
      simp [alookup]
    · rw [scoreOf, scoreOf, alookup_append_single _ _ ht]
      simp [ht]

theorem scoreOf_foldl_addScore (w : Wiki) (term : String) (ds : List String)
    (sc : List (String × ℝ)) (t : String) :
    scoreOf (ds.foldl (fun s2 title => addScore s2 title (contrib w term title)) sc) t
      = scoreOf sc t + (ds.count t : ℝ) * contrib w term t := by
  induction ds generalizing sc with
  | nil => simp
  | cons d rest ih =>
    rw [List.foldl_cons, ih, scoreOf_addScore]
    by_cases hd : t = d
    · subst hd
      rw [if_pos rfl, List.count_cons_self]
      push_cast
      ring
    · rw [if_neg hd, List.count_cons_of_ne (by simpa using hd)]
      ring

theorem scoreOf_scoresFor (w : Wiki) (tokens : List String) (t : String) :
    scoreOf (scoresFor w tokens) t = bm25Of w tokens t := by
  have main : ∀ toks (sc : List (String × ℝ)),
      scoreOf (toks.foldl (fun sc2 term =>
        match alookup term w.invertedIndex with
        | none => sc2
        | some ds => ds.foldl (fun s3 title => addScore s3 title (contrib w term title)) sc2)
        sc) t
      = scoreOf sc t + bm25Of w toks t := by
    intro toks
    induction toks with
    | nil =>
      intro sc
      simp [bm25Of]
    | cons term rest ih =>
      intro sc
      rw [List.foldl_cons]
      cases hidx : alookup term w.invertedIndex with
      | none =>
        show scoreOf (rest.foldl (fun sc2 term =>
            match alookup term w.invertedIndex with
            | none => sc2
            | some ds => ds.foldl (fun s3 title =>
                addScore s3 title (contrib w term title)) sc2) sc) t
          = scoreOf sc t + bm25Of w (term :: rest) t
        rw [ih sc, bm25Of_cons, bm25TermOf_none hidx]
        ring
      | some ds =>
        show scoreOf (rest.foldl (fun sc2 term =>
            match alookup term w.invertedIndex with
            | none => sc2
            | some ds => ds.foldl (fun s3 title =>
                addScore s3 title (contrib w term title)) sc2)
          (ds.foldl (fun s3 title => addScore s3 title (contrib w term title)) sc)) t
          = scoreOf sc t + bm25Of w (term :: rest) t
        rw [ih _, scoreOf_foldl_addScore, bm25Of_cons, bm25TermOf_some hidx]
        ring
  have h0 := main tokens []
  rw [show scoreOf [] t = 0 from rfl, zero_add] at h0
  exact h0

theorem akeys_addScore_nodup {sc : List (String × ℝ)} {t : String} {v : ℝ}
    (h : (akeys sc).Nodup) : (akeys (addScore sc t v)).Nodup := by
  rw [addScore]
  by_cases hs : (alookup t sc).isSome
  · rw [if_pos hs]
    rw [show akeys (sc.map fun p => (p.1, if p.1 = t then p.2 + v else p.2)) = akeys sc
      from akeys_mapVal (fun k y => if k = t then y + v else y) sc]
    exact h
  · rw [if_neg hs, akeys_append]
    refine h.append (by simp [akeys]) ?_
    intro a ha hb
    simp only [akeys, List.map_cons, List.map_nil, List.mem_singleton] at hb
    subst hb
    exact hs (alookup_isSome_iff.mpr ha)

theorem scoresFor_nodup (w : Wiki) (tokens : List String) :
    (akeys (scoresFor w tokens)).Nodup := by
  have inner : ∀ (term : String) (ds : List String) (sc : List (String × ℝ)),
      (akeys sc).Nodup →
      (akeys (ds.foldl (fun s2 title => addScore s2 title (contrib w term title)) sc)).Nodup := by
    intro term ds
    induction ds with
    | nil => exact fun sc h => h
    | cons d rest ih =>
      intro sc h
      rw [List.foldl_cons]
      exact ih _ (akeys_addScore_nodup h)
  have main : ∀ (toks : List String) (sc : List (String × ℝ)), (akeys sc).Nodup →
      (akeys (toks.foldl (fun sc2 term =>
        match alookup term w.invertedIndex with
        | none => sc2
        | some ds => ds.foldl (fun s3 title => addScore s3 title (contrib w term title)) sc2)
        sc)).Nodup := by
    intro toks
    induction toks with
    | nil => exact fun sc h => h
    | cons term rest ih =>
      intro sc h
      rw [List.foldl_cons]
      cases hidx : alookup term w.invertedIndex with
      | none =>
        show (akeys (rest.foldl (fun sc2 term =>
            match alookup term w.invertedIndex with
            | none => sc2
            | some ds => ds.foldl (fun s3 title =>
                addScore s3 title (contrib w term title)) sc2) sc)).Nodup
        exact ih sc h
      | some ds =>
        show (akeys (rest.foldl (fun sc2 term =>
            match alookup term w.invertedIndex with
            | none => sc2
            | some ds => ds.foldl (fun s3 title =>
                addScore s3 title (contrib w term title)) sc2)
          (ds.foldl (fun s3 title => addScore s3 title (contrib w term title)) sc))).Nodup
        exact ih _ (inner term ds sc h)
  exact main tokens [] (by simp [akeys])

theorem mem_scoresFor_eq {w : Wiki} {tokens : List String} {t : String} {s : ℝ}
    (h : (t, s) ∈ scoresFor w tokens) : s = bm25Of w tokens t := by
  have h2 : alookup t (scoresFor w tokens) = some s :=
    alookup_of_mem (scoresFor_nodup w tokens) h
  have h3 := scoreOf_scoresFor w tokens t
  rw [scoreOf, h2] at h3
  simpa using h3

/-! ### Search: emptiness, truncation, ordering, membership -/

theorem round3_mono {x y : ℝ} (h : x ≤ y) : round3 x ≤ round3 y := by
  rw [round3, round3]
  have hr : round (x * 1000) ≤ round (y * 1000) := by
    rw [round_eq, round_eq]
    exact Int.floor_le_floor (by linarith)
  have : ((round (x * 1000) : ℤ) : ℝ) ≤ ((round (y * 1000) : ℤ) : ℝ) := by
    exact_mod_cast hr
  linarith

theorem round3_close (x : ℝ) : |round3 x - x| ≤ 1 / 2000 := by
  rw [round3]
  have h := abs_sub_round (x * 1000)
  have heq : ((round (x * 1000) : ℤ) : ℝ) / 1000 - x
      = -((x * 1000 - (round (x * 1000) : ℤ)) / 1000) := by
    ring
  rw [heq, abs_neg, abs_div]
  rw [show |(1000 : ℝ)| = 1000 by norm_num]
  linarith

theorem search_of_degenerate (w : Wiki) (q : String) (k : ℕ)
    (h : tokenize q = [] ∨ w.pages = []) : search w q k = [] := by
  simp only [search]
  rw [if_pos h]

theorem search_length_le (w : Wiki) (q : String) (k : ℕ) :
    (search w q k).length ≤ k := by
  simp only [search]
  by_cases h : tokenize q = [] ∨ w.pages = []
  · rw [if_pos h]
    simp
  · rw [if_neg h]
    rw [List.length_map]
    exact List.length_take_le k _

theorem search_sorted (w : Wiki) (q : String) (k : ℕ) :
    (search w q k).Pairwise fun x y => y.2.1 ≤ x.2.1 := by
  simp only [search]
  by_cases h : tokenize q = [] ∨ w.pages = []
  · rw [if_pos h]
    simp
  · rw [if_neg h]
    have hs : (List.insertionSort scoreGE (scoresFor w (tokenize q))).Pairwise scoreGE :=
      List.sorted_insertionSort scoreGE _
    have hs2 : ((List.insertionSort scoreGE (scoresFor w (tokenize q))).take k).Pairwise
        scoreGE := hs.sublist (List.take_sublist k _)
    exact hs2.map _ fun a b hab => round3_mono hab

theorem mem_search_parts {w : Wiki} {q : String} {k : ℕ} {r : String × ℝ × String}
    (h : r ∈ search w q k) :
    ∃ s0, (r.1, s0) ∈ scoresFor w (tokenize q) ∧ r.2.1 = round3 s0 ∧
      r.2.2 = makeSnippet (((alookup r.1 w.pages).map WikiPage.content).getD "")
        (tokenize q) := by
  simp only [search] at h
  by_cases hc : tokenize q = [] ∨ w.pages = []
  · rw [if_pos hc] at h
    cases h
  · rw [if_neg hc] at h
    obtain ⟨p, hp, hr⟩ := List.mem_map.mp h
    have h1 : p ∈ List.insertionSort scoreGE (scoresFor w (tokenize q)) :=
      List.take_subset k _ hp
    have h2 : p ∈ scoresFor w (tokenize q) :=
      (List.perm_insertionSort scoreGE _).subset h1
    refine ⟨p.2, ?_, ?_, ?_⟩
    · rw [← hr]
      exact h2
    · rw [← hr]
    · rw [← hr]

/-- Score a returned result provably carries: the rounded accumulated
BM25 sum of the query's token occurrences. -/
theorem search_score_round {w : Wiki} {q : String} {k : ℕ} {r : String × ℝ × String}
    (h : r ∈ search w q k) : r.2.1 = round3 (bm25Of w (tokenize q) r.1) := by
  obtain ⟨s0, hmem, hs, _⟩ := mem_search_parts h
  rw [hs, mem_scoresFor_eq hmem]

/-! ### The spec-side score formula -/

/-- Stated from the spec's words (§4.3 steps 2-4 and claim C3): the
contribution of one query token to one document, with `tf` and `dl`
taken from the document's current content (not from the stored length
record), guarded `avgdl`, and no rounding. -/
noncomputable def bm25SpecTermOf (w : Wiki) (term t : String) : ℝ :=
  match alookup term w.invertedIndex with
  | none => 0
  | some ds =>
    if t ∈ ds then
      termContribution (idfValue w.pages.length ds.length)
        ((((alookup t w.pages).map fun p => (tokenize p.content).length).getD 0 : ℕ) : ℝ)
        (if w.avgDocLength = 0 then 1 else (w.avgDocLength : ℝ))
        (tfOf w t term)
    else 0

/-- Spec-side score of a document for a token sequence: the sum of the
per-token contributions. -/
noncomputable def bm25SpecScore (w : Wiki) (tokens : List String) (t : String) : ℝ :=
  (tokens.map fun term => bm25SpecTermOf w term t).sum

theorem bm25SpecScore_cons (w : Wiki) (term : String) (rest : List String) (t : String) :
    bm25SpecScore w (term :: rest) t
      = bm25SpecTermOf w term t + bm25SpecScore w rest t := by
  simp [bm25SpecScore]

theorem bm25TermOf_eq_spec {w : Wiki} (hco : Coherent w) (term t : String) :
    bm25TermOf w term t = bm25SpecTermOf w term t := by
  cases hidx : alookup term w.invertedIndex with
  | none =>
    rw [bm25TermOf_none hidx]
    simp only [bm25SpecTermOf, hidx]
  | some ds =>
    rw [bm25TermOf_some hidx]
    have hspec : bm25SpecTermOf w term t = if t ∈ ds then
        termContribution (idfValue w.pages.length ds.length)
          ((((alookup t w.pages).map fun p => (tokenize p.content).length).getD 0 : ℕ) : ℝ)
          (if w.avgDocLength = 0 then 1 else (w.avgDocLength : ℝ))
          (tfOf w t term)
      else 0 := by
      simp only [bm25SpecTermOf, hidx]
    rw [hspec]
    by_cases hmem : t ∈ ds
    · rw [if_pos hmem, List.count_eq_one_of_mem (hco.postNodup term ds hidx) hmem,
        Nat.cast_one, one_mul]
      obtain ⟨p, hp, _⟩ := hco.postSound term ds t hidx hmem
      have hdl : alookup t w.docLengths = some (tokenize p.content).length := by
        rw [hco.dlSpec t, hp]
        rfl
      simp only [contrib, hidx, Option.getD_some, hdl, hp]
      rfl
    · rw [if_neg hmem, List.count_eq_zero_of_not_mem hmem]
      simp

theorem bm25Of_eq_spec {w : Wiki} (hco : Coherent w) (tokens : List String) (t : String) :
    bm25Of w tokens t = bm25SpecScore w tokens t := by
  induction tokens with
  | nil => rfl
  | cons term rest ih =>
    rw [bm25Of_cons, ih, bm25SpecScore_cons, bm25TermOf_eq_spec hco term t]

/-! ### Analytic facts about the BM25 formula -/

theorem termContribution_mono {idf dl avgdl : ℝ} (hidf : 0 ≤ idf) (hdl : 0 ≤ dl)
    (havg : 0 < avgdl) {tf1 tf2 : ℕ} (h : tf1 ≤ tf2) :
    termContribution idf dl avgdl tf1 ≤ termContribution idf dl avgdl tf2 := by
  rw [termContribution, termContribution, bm25K1, bm25B]
  have hCpos : (0:ℝ) < 1.5 * (1 - 0.75 + 0.75 * dl / avgdl) := by
    have hq : (0:ℝ) ≤ 0.75 * dl / avgdl := div_nonneg (by linarith) havg.le
    nlinarith
  have h1 : (0:ℝ) < (tf1 : ℝ) + 1.5 * (1 - 0.75 + 0.75 * dl / avgdl) := by
    have : (0:ℝ) ≤ (tf1 : ℝ) := Nat.cast_nonneg tf1
    linarith
  have h2 : (0:ℝ) < (tf2 : ℝ) + 1.5 * (1 - 0.75 + 0.75 * dl / avgdl) := by
    have : (0:ℝ) ≤ (tf2 : ℝ) := Nat.cast_nonneg tf2
    linarith
  have hc : (tf1 : ℝ) ≤ (tf2 : ℝ) := Nat.cast_le.mpr h
  have hkey : (tf1 : ℝ) * (1.5 + 1) / ((tf1 : ℝ) + 1.5 * (1 - 0.75 + 0.75 * dl / avgdl))
      ≤ (tf2 : ℝ) * (1.5 + 1) / ((tf2 : ℝ) + 1.5 * (1 - 0.75 + 0.75 * dl / avgdl)) := by
    rw [div_le_div_iff h1 h2]
    nlinarith [mul_nonneg (sub_nonneg.mpr hc) hCpos.le]
  calc idf * ((tf1 : ℝ) * (1.5 + 1)) / ((tf1 : ℝ) + 1.5 * (1 - 0.75 + 0.75 * dl / avgdl))
      = idf * ((tf1 : ℝ) * (1.5 + 1) / ((tf1 : ℝ) + 1.5 * (1 - 0.75 + 0.75 * dl / avgdl))) := by
        ring
    _ ≤ idf * ((tf2 : ℝ) * (1.5 + 1) / ((tf2 : ℝ) + 1.5 * (1 - 0.75 + 0.75 * dl / avgdl))) :=
        mul_le_mul_of_nonneg_left hkey hidf
    _ = idf * ((tf2 : ℝ) * (1.5 + 1)) / ((tf2 : ℝ) + 1.5 * (1 - 0.75 + 0.75 * dl / avgdl)) := by
        ring

theorem idfValue_nonneg {n df : ℕ} (_hn : 1 ≤ n) (hdf : df ≤ n) : 0 ≤ idfValue n df := by
  rw [idfValue]
  apply Real.log_nonneg
  have h1 : (0:ℝ) < (df : ℝ) + 0.5 := by positivity
  have h2 : (0:ℝ) ≤ (n : ℝ) - (df : ℝ) + 0.5 := by
    have : (df : ℝ) ≤ (n : ℝ) := Nat.cast_le.mpr hdf
    linarith
  have h3 : 0 ≤ ((n : ℝ) - (df : ℝ) + 0.5) / ((df : ℝ) + 0.5) := div_nonneg h2 h1.le
  linarith

/-! ### Concrete stores for witnesses and counterexamples -/

def pgCat : WikiPage :=
  { title := "p1", content := "cat", tags := [], links := [], created_at := 0, updated_at := 0 }

def pgDog : WikiPage :=
  { title := "p2", content := "dog", tags := [], links := [], created_at := 0, updated_at := 0 }

def wOne : Wiki :=
  { pages := [("p1", pgCat)], iteration := 0, invertedIndex := [("cat", ["p1"])], docLengths := [("p1", 1)], avgDocLength := avgOf [("p1", 1)] }

def wTwo : Wiki :=
  { pages := [("p1", pgCat), ("p2", pgDog)], iteration := 0, invertedIndex := [("cat", ["p1"]), ("dog", ["p2"])], docLengths := [("p1", 1), ("p2", 1)], avgDocLength := avgOf [("p1", 1), ("p2", 1)] }

theorem create_p1 : create emptyWiki "p1" "cat" none = Except.ok (pgCat, wOne) := rfl

theorem create_p2 : create wOne "p2" "dog" none = Except.ok (pgDog, wTwo) := rfl

theorem reachable_wOne : Reachable wOne :=
  Relation.ReflTransGen.single (Step.createStep emptyWiki "p1" "cat" none pgCat wOne create_p1)

theorem reachable_wTwo : Reachable wTwo :=
  reachable_wOne.tail (Step.createStep wOne "p2" "dog" none pgDog wTwo create_p2)

theorem search_wTwo_cat : search wTwo "cat" 5
    = [("p1", round3 (contrib wTwo "cat" "p1"), "cat")] := rfl

theorem search_wTwo_catcat : search wTwo "cat cat" 5
    = [("p1", round3 (contrib wTwo "cat" "p1" + contrib wTwo "cat" "p1"), "cat")] := rfl

theorem avg_wTwo : wTwo.avgDocLength = 1 := by
  show avgOf [("p1", 1), ("p2", 1)] = 1
  rw [avgOf]
  norm_num

theorem contrib_wTwo_eq : contrib wTwo "cat" "p1" = Real.log 2 := by
  have e1 : wTwo.pages.length = 2 := rfl
  have e2 : ((alookup "cat" wTwo.invertedIndex).getD []).length = 1 := rfl
  have e3 : (alookup "p1" wTwo.docLengths).getD 1 = 1 := rfl
  have e4 : tfOf wTwo "p1" "cat" = 1 := rfl
  rw [contrib, e1, e2, e3, e4, avg_wTwo]
  rw [if_neg (by norm_num)]
  have hidf : idfValue 2 1 = Real.log 2 := by
    rw [idfValue]
    norm_num
  rw [hidf, termContribution, bm25K1, bm25B]
  push_cast
  rw [show (1:ℝ) + 1.5 * (1 - 0.75 + 0.75 * 1 / 1) = 2.5 by norm_num]
  rw [show (1:ℝ) * (1.5 + 1) = 2.5 by norm_num]
  rw [mul_div_assoc, div_self (by norm_num), mul_one]

theorem specTerm_wTwo : bm25SpecTermOf wTwo "cat" "p1" = Real.log 2 := by
  have hco : Coherent wTwo := reachable_coherent reachable_wTwo
  rw [← bm25TermOf_eq_spec hco "cat" "p1",
    bm25TermOf_some (show alookup "cat" wTwo.invertedIndex = some ["p1"] from rfl),
    show List.count "p1" ["p1"] = 1 from rfl, Nat.cast_one, one_mul, contrib_wTwo_eq]

theorem spec_wTwo_catcat_dedup :
    bm25SpecScore wTwo ((tokenize "cat cat").dedup) "p1" = Real.log 2 := by
  rw [show (tokenize "cat cat").dedup = ["cat"] from rfl]
  rw [show bm25SpecScore wTwo ["cat"] "p1"
    = bm25SpecTermOf wTwo "cat" "p1" + bm25SpecScore wTwo [] "p1" from bm25SpecScore_cons wTwo "cat" [] "p1"]
  rw [show bm25SpecScore wTwo [] "p1" = 0 from rfl, specTerm_wTwo, add_zero]

theorem round3_double_log_two_ne : round3 (Real.log 2 + Real.log 2) ≠ Real.log 2 := by
  intro hEq
  have hb := round3_close (Real.log 2 + Real.log 2)
  rw [hEq] at hb
  have h2 : (0.6931471803 : ℝ) < Real.log 2 := Real.log_two_gt_d9
  have habs : |Real.log 2 - (Real.log 2 + Real.log 2)| = Real.log 2 := by
    rw [show Real.log 2 - (Real.log 2 + Real.log 2) = -Real.log 2 by ring, abs_neg,
      abs_of_nonneg (Real.log_nonneg (by norm_num))]
  rw [habs] at hb
  linarith

def pgA : WikiPage :=
  { title := "a", content := "", tags := [], links := [], created_at := 0, updated_at := 0 }

def pgB : WikiPage :=
  { title := "b", content := "", tags := [], links := [], created_at := 0, updated_at := 0 }

def wA : Wiki :=
  { pages := [("a", pgA)], iteration := 0, invertedIndex := [], docLengths := [("a", 0)], avgDocLength := avgOf [("a", 0)] }

def wAB : Wiki :=
  { pages := [("a", pgA), ("b", pgB)], iteration := 0, invertedIndex := [], docLengths := [("a", 0), ("b", 0)], avgDocLength := avgOf [("a", 0), ("b", 0)] }

def wAB5 : Wiki := { wAB with iteration := 5 }

def pgA5 : WikiPage :=
  { title := "a", content := "", tags := [], links := ["b"], created_at := 0, updated_at := 0 }

def wL : Wiki :=
  { pages := [("a", pgA5), ("b", pgB)], iteration := 5, invertedIndex := [], docLengths := [("a", 0), ("b", 0)], avgDocLength := avgOf [("a", 0), ("b", 0)] }

theorem create_a : create emptyWiki "a" "" none = Except.ok (pgA, wA) := rfl

theorem create_b : create wA "b" "" none = Except.ok (pgB, wAB) := rfl

theorem link_ab : link wAB5 "a" "b" = Except.ok wL := rfl

theorem reachable_wAB5 : Reachable wAB5 :=
  Relation.ReflTransGen.tail
    (Relation.ReflTransGen.tail
      (Relation.ReflTransGen.single
        (Step.createStep emptyWiki "a" "" none pgA wA create_a))
      (Step.createStep wA "b" "" none pgB wAB create_b))
    (Step.iterStep wAB 5)

/-! ### The claims -/

/-- C1 (amended): for every title `t` not present in the store, `get`,
`update`, `delete`, `link(t, x)` and `link(x, t)` all fail with
`NotFound`; `backlinks(t)` does NOT fail — the source performs no
existence check — and in every reachable state it returns the empty
list, since referential integrity leaves no page linking to `t`. -/
theorem claim_C1 (w : Wiki) (t : String) (h : alookup t w.pages = none) :
    get w t = Except.error WikiError.notFound ∧
    (∀ c a tg, update w t c a tg = Except.error WikiError.notFound) ∧
    delete w t = Except.error WikiError.notFound ∧
    (∀ x, link w t x = Except.error WikiError.notFound ∧
      link w x t = Except.error WikiError.notFound) ∧
    (Reachable w → backlinks w t = Except.ok []) :=
  ⟨get_absent h, fun c a tg => update_absent c a tg h, delete_absent h,
   fun x => ⟨link_absent_left x h, link_absent_right x h⟩,
   fun hr => backlinks_absent (reachable_coherent hr).pagesNodup
     (reachable_linksClosed hr) h⟩

/-- C1 witness: the empty store with the absent title "x". -/
theorem claim_C1_witness :
    alookup "x" emptyWiki.pages = none ∧
    get emptyWiki "x" = Except.error WikiError.notFound ∧
    backlinks emptyWiki "x" = Except.ok [] := by
  have h := claim_C1 emptyWiki "x" rfl
  exact ⟨rfl, h.1, h.2.2.2.2 Relation.ReflTransGen.refl⟩

/-- C1 counterexample: `backlinks` on an absent title does not fail with
`NotFound` (wiki.py lines 154-158 perform no existence check). -/
theorem claim_C1_counterexample :
    alookup "x" emptyWiki.pages = none ∧
    backlinks emptyWiki "x" ≠ Except.error WikiError.notFound := by
  refine ⟨rfl, ?_⟩
  intro h
  rw [show backlinks emptyWiki "x" = Except.ok [] from rfl] at h
  cases h

/-- C2: referential integrity. In every reachable state no page links
to an absent title; `delete t` leaves no surviving page holding `t` in
its link set; `link a b` succeeds only when both endpoints exist. -/
theorem claim_C2 (w : Wiki) (hr : Reachable w) :
    (∀ t p, alookup t w.pages = some p → ∀ l ∈ p.links, (alookup l w.pages).isSome) ∧
    (∀ t w', delete w t = Except.ok w' → ∀ s p', alookup s w'.pages = some p' →
      t ∉ p'.links) ∧
    (∀ a b w', link w a b = Except.ok w' →
      (alookup a w.pages).isSome ∧ (alookup b w.pages).isSome) := by
  refine ⟨?_, ?_, ?_⟩
  · intro t p hp l hlm
    exact alookup_isSome_iff.mpr (reachable_linksClosed hr t p hp l hlm)
  · intro t w' hdel s p' hp'
    obtain ⟨_, hall⟩ := delete_ok_parts hdel
    have hs := (hall s).symm.trans hp'
    by_cases hst : s = t
    · rw [if_pos hst] at hs
      cases hs
    · rw [if_neg hst] at hs
      cases hlo : alookup s w.pages with
      | none => rw [hlo] at hs; cases hs
      | some q =>
        rw [hlo] at hs
        obtain rfl := Option.some_injective _ hs
        intro hmem
        simp only at hmem
        exact (mem_filter_ne.mp hmem).2 rfl
  · intro a b w' hlink
    obtain ⟨h1, h2, _⟩ := link_ok_parts hlink
    exact ⟨h1, h2⟩

def pgCatL : WikiPage :=
  { title := "p1", content := "cat", tags := [], links := ["p2"], created_at := 0, updated_at := 0 }

def wTwoL : Wiki :=
  { pages := [("p1", pgCatL), ("p2", pgDog)], iteration := 0, invertedIndex := [("cat", ["p1"]), ("dog", ["p2"])], docLengths := [("p1", 1), ("p2", 1)], avgDocLength := avgOf [("p1", 1), ("p2", 1)] }

theorem link_wTwo : link wTwo "p1" "p2" = Except.ok wTwoL := rfl

/-- C2 witness: a concrete successful link on a reachable store has both
endpoints live. -/
theorem claim_C2_witness :
    (alookup "p1" wTwo.pages).isSome ∧ (alookup "p2" wTwo.pages).isSome :=
  (claim_C2 wTwo reachable_wTwo).2.2 "p1" "p2" wTwoL link_wTwo

/-- C3 (amended): each (title, score) pair returned by `search` carries
the ROUND-TO-3-DECIMALS of the sum over all query token OCCURRENCES
(counted with multiplicity, not deduplicated, wiki.py line 180) of the
BM25 contribution `idf * tf * (k1 + 1) / (tf + k1 * (1 - b + b * dl / avgdl))`. -/
theorem claim_C3 (w : Wiki) (q : String) (k : ℕ) (r : String × ℝ × String)
    (hr : Reachable w) (_hpages : w.pages ≠ []) (_htok : tokenize q ≠ [])
    (hmem : r ∈ search w q k) :
    r.2.1 = round3 (bm25SpecScore w (tokenize q) r.1) := by
  rw [search_score_round hmem, bm25Of_eq_spec (reachable_coherent hr)]

/-- C3 witness: a two-page store queried with "cat". -/
theorem claim_C3_witness :
    Reachable wTwo ∧ wTwo.pages ≠ [] ∧ tokenize "cat" ≠ [] ∧
    ("p1", round3 (contrib wTwo "cat" "p1"), "cat") ∈ search wTwo "cat" 5 ∧
    round3 (contrib wTwo "cat" "p1")
      = round3 (bm25SpecScore wTwo (tokenize "cat") "p1") := by
  have hmem : ("p1", round3 (contrib wTwo "cat" "p1"), "cat") ∈ search wTwo "cat" 5 := by
    rw [search_wTwo_cat]
    exact List.mem_singleton.mpr rfl
  refine ⟨reachable_wTwo, by decide, by decide, hmem, ?_⟩
  exact claim_C3 wTwo "cat" 5 _ reachable_wTwo (by decide) (by decide) hmem

/-- C3 counterexample: on the reachable two-page store, the query
"cat cat" (a duplicated token) returns for "p1" the score
`round3 (log 2 + log 2)`, which differs from the claim's value — the
un-rounded sum `log 2` over DISTINCT query tokens. -/
theorem claim_C3_counterexample :
    Reachable wTwo ∧ wTwo.pages ≠ [] ∧ tokenize "cat cat" ≠ [] ∧
    ("p1", round3 (contrib wTwo "cat" "p1" + contrib wTwo "cat" "p1"), "cat")
      ∈ search wTwo "cat cat" 5 ∧
    round3 (contrib wTwo "cat" "p1" + contrib wTwo "cat" "p1")
      ≠ bm25SpecScore wTwo ((tokenize "cat cat").dedup) "p1" := by
  refine ⟨reachable_wTwo, by decide, by decide, ?_, ?_⟩
  · rw [search_wTwo_catcat]
    exact List.mem_singleton.mpr rfl
  · rw [contrib_wTwo_eq, spec_wTwo_catcat_dedup]
    exact round3_double_log_two_ne

/-- C4: index/content coherence at every reachable state: a token has a
posting list containing a title iff that title is a live page whose
current content contains the token; no posting list is empty; the
length records match the current contents; a deleted (absent) page is in
no posting list and has no length record; the stored average is the mean
of the current document lengths (0 for the empty corpus). -/
theorem claim_C4 (w : Wiki) (hr : Reachable w) :
    (∀ tok t, (∃ ts, alookup tok w.invertedIndex = some ts ∧ t ∈ ts) ↔
      (∃ p, alookup t w.pages = some p ∧ tok ∈ tokenize p.content)) ∧
    (∀ tok ts, alookup tok w.invertedIndex = some ts → ts ≠ []) ∧
    (∀ t, alookup t w.docLengths
      = (alookup t w.pages).map fun p => (tokenize p.content).length) ∧
    (∀ t, alookup t w.pages = none →
      (∀ tok ts, alookup tok w.invertedIndex = some ts → t ∉ ts) ∧
      alookup t w.docLengths = none) ∧
    w.avgDocLength = (if w.docLengths = [] then 0 else avgOf w.docLengths) := by
  have hco := reachable_coherent hr
  refine ⟨?_, hco.postNonempty, hco.dlSpec, ?_, hco.avgSpec⟩
  · intro tok t
    constructor
    · rintro ⟨ts, hts, htm⟩
      exact hco.postSound tok ts t hts htm
    · rintro ⟨p, hp, htok⟩
      exact hco.postComplete t p tok hp htok
  · intro t hnone
    refine ⟨?_, ?_⟩
    · intro tok ts hts hmem
      obtain ⟨p, hp, _⟩ := hco.postSound tok ts t hts hmem
      rw [hnone] at hp
      cases hp
    · rw [hco.dlSpec t, hnone]
      rfl

/-- C4 witness at a concrete reachable state. -/
theorem claim_C4_witness :
    wTwo.avgDocLength = (if wTwo.docLengths = [] then 0 else avgOf wTwo.docLengths) :=
  (claim_C4 wTwo reachable_wTwo).2.2.2.2

/-- C5 (amended): `created_at` is fixed at creation and never changed by
`update`, `link` or `delete`; `updated_at` is set to the current
iteration by `create` and by every successful `update` (even when only
tags change) — but `link` mutates the source page's outbound set WITHOUT
touching any timestamp (wiki.py lines 124-131 never assign
`updated_at`). -/
theorem claim_C5 (w : Wiki) :
    (∀ t c tg p w', create w t c tg = Except.ok (p, w') →
      p.created_at = w.iteration ∧ p.updated_at = w.iteration) ∧
    (∀ t c a tg p w', update w t c a tg = Except.ok (p, w') →
      (∃ p0, alookup t w.pages = some p0 ∧ p.created_at = p0.created_at) ∧
      p.updated_at = w.iteration) ∧
    (∀ a b w', link w a b = Except.ok w' → ∀ s,
      (alookup s w'.pages).map WikiPage.created_at
        = (alookup s w.pages).map WikiPage.created_at ∧
      (alookup s w'.pages).map WikiPage.updated_at
        = (alookup s w.pages).map WikiPage.updated_at) ∧
    (∀ t w', delete w t = Except.ok w' → ∀ s p', alookup s w'.pages = some p' →
      ∃ p0, alookup s w.pages = some p0 ∧ p'.created_at = p0.created_at ∧
        p'.updated_at = p0.updated_at) := by
  refine ⟨?_, ?_, ?_, ?_⟩
  · intro t c tg p w' h
    obtain ⟨_, _, _, _, hcr, hup, _⟩ := create_ok_parts h
    exact ⟨hcr, hup⟩
  · intro t c a tg p w' h
    obtain ⟨page, h1, h2, h3, _⟩ := update_ok_parts h
    exact ⟨⟨page, h1, h2⟩, h3⟩
  · intro a b w' h s
    obtain ⟨_, _, hall, _⟩ := link_ok_parts h
    rw [hall s]
    cases alookup s w.pages with
    | none => exact ⟨rfl, rfl⟩
    | some q =>
      by_cases hsa : s = a <;> simp [hsa]
  · intro t w' h s p' hp'
    obtain ⟨_, hall⟩ := delete_ok_parts h
    have hs := (hall s).symm.trans hp'
    by_cases hst : s = t
    · rw [if_pos hst] at hs
      cases hs
    · rw [if_neg hst] at hs
      cases hlo : alookup s w.pages with
      | none => rw [hlo] at hs; cases hs
      | some q =>
        rw [hlo] at hs
        obtain rfl := Option.some_injective _ hs
        exact ⟨q, rfl, rfl, rfl⟩

/-- C5 witness: a concrete creation. -/
theorem claim_C5_witness :
    pgA.created_at = emptyWiki.iteration ∧ pgA.updated_at = emptyWiki.iteration :=
  (claim_C5 emptyWiki).1 "a" "" none pgA wA create_a

/-- C5 counterexample: on a reachable store at iteration 5, `link`
succeeds and mutates page "a"'s outbound set, yet "a"'s `updated_at`
stays 0 instead of the current iteration 5. -/
theorem claim_C5_counterexample :
    Reachable wAB5 ∧ wAB5.iteration = 5 ∧ link wAB5 "a" "b" = Except.ok wL ∧
    (alookup "a" wL.pages).map WikiPage.links = some ["b"] ∧
    (alookup "a" wL.pages).map WikiPage.updated_at = some 0 ∧ (0 : ℕ) ≠ 5 := by
  exact ⟨reachable_wAB5, rfl, link_ab, rfl, rfl, by decide⟩

/-- C6: the BM25 term contribution is monotone in the term frequency,
for fixed non-negative idf, non-negative dl and positive avgdl. -/
theorem claim_C6 (idf dl avgdl : ℝ) (tf1 tf2 : ℕ) (hidf : 0 ≤ idf) (hdl : 0 ≤ dl)
    (havg : 0 < avgdl) (h : tf1 ≤ tf2) :
    termContribution idf dl avgdl tf1 ≤ termContribution idf dl avgdl tf2 :=
  termContribution_mono hidf hdl havg h

/-- C6 witness at concrete values. -/
theorem claim_C6_witness :
    (0:ℝ) ≤ 1 ∧ (0:ℝ) < 1 ∧ (1:ℕ) ≤ 2 ∧
    termContribution 1 1 1 1 ≤ termContribution 1 1 1 2 :=
  ⟨by norm_num, by norm_num, by norm_num,
   claim_C6 1 1 1 1 2 (by norm_num) (by norm_num) (by norm_num) (by norm_num)⟩

/-- C7: the idf value `ln((N - df + 0.5) / (df + 0.5) + 1)` is
non-negative for every live document count N ≥ 1 and df in [0, N]. -/
theorem claim_C7 (n df : ℕ) (hn : 1 ≤ n) (hdf : df ≤ n) : 0 ≤ idfValue n df :=
  idfValue_nonneg hn hdf

/-- C7 witness at concrete values. -/
theorem claim_C7_witness : (1:ℕ) ≤ 1 ∧ (0:ℕ) ≤ 1 ∧ 0 ≤ idfValue 1 0 :=
  ⟨le_refl 1, by norm_num, claim_C7 1 0 (le_refl 1) (by norm_num)⟩

/-- C8: `search` returns the empty list when the query tokenizes to no
tokens or the store is empty, and otherwise (indeed always) returns at
most `top_k` results ordered by non-increasing score. -/
theorem claim_C8 (w : Wiki) (q : String) (k : ℕ) :
    (tokenize q = [] ∨ w.pages = [] → search w q k = []) ∧
    (search w q k).length ≤ k ∧
    (search w q k).Pairwise (fun x y => y.2.1 ≤ x.2.1) :=
  ⟨search_of_degenerate w q k, search_length_le w q k, search_sorted w q k⟩

/-- C8 witness: the empty-query case evaluated on the empty store. -/
theorem claim_C8_witness :
    search emptyWiki "" 5 = [] ∧ (search wTwo "cat" 5).length ≤ 5 :=
  ⟨(claim_C8 emptyWiki "" 5).1 (Or.inl rfl), (claim_C8 wTwo "cat" 5).2.1⟩

/-- C9: after a successful `create(t, c)`, `get t` returns the created
page with content `c` and both timestamps equal to the creation-time
iteration, and any further `create` under the same title fails with
`DuplicateTitle` (the guard precedes every mutation, wiki.py line 57). -/
theorem claim_C9 (w : Wiki) (t c : String) (tg : Option (List String)) (p : WikiPage)
    (w' : Wiki) (h : create w t c tg = Except.ok (p, w')) :
    get w' t = Except.ok p ∧ p.content = c ∧
    p.created_at = w.iteration ∧ p.updated_at = w.iteration ∧
    (∀ c2 tg2, create w' t c2 tg2 = Except.error WikiError.duplicateTitle) := by
  obtain ⟨hnone, hpages, _, hc, hcr, hup, _⟩ := create_ok_parts h
  have hlook : alookup t w'.pages = some p := by
    rw [hpages, alookup_append_right hnone]
    simp [alookup]
  exact ⟨get_present hlook, hc, hcr, hup,
    fun c2 tg2 => create_duplicate c2 tg2 (by rw [hlook]; rfl)⟩

/-- C9 witness: a concrete creation followed by a duplicate attempt. -/
theorem claim_C9_witness :
    get wOne "p1" = Except.ok pgCat ∧ pgCat.content = "cat" ∧
    create wOne "p1" "x" none = Except.error WikiError.duplicateTitle := by
  have h := claim_C9 emptyWiki "p1" "cat" none pgCat wOne create_p1
  exact ⟨h.1, h.2.1, h.2.2.2.2 "x" none⟩

/-- C10: `update` with both `content` and `append` supplied replaces the
body with `content` and silently ignores `append` (the `elif` on wiki.py
line 94 is skipped). -/
theorem claim_C10 (w : Wiki) (t c s : String) (tg : Option (List String))
    (p0 : WikiPage) (hex : alookup t w.pages = some p0) :
    ∃ p w', update w t (some c) (some s) tg = Except.ok (p, w') ∧ p.content = c ∧
      alookup t w'.pages = some p := by
  cases hres : update w t (some c) (some s) tg with
  | error e =>
    simp only [update, hex] at hres
    cases hres
  | ok pr =>
    obtain ⟨p, w'⟩ := pr
    obtain ⟨page, _, _, _, _, _, hpages, _, hcont, _⟩ := update_ok_parts hres
    refine ⟨p, w', rfl, hcont c rfl, ?_⟩
    rw [hpages]
    exact alookup_replaceVal_self p (by rw [hex]; rfl)

/-- C10 witness: replacement wins over append on a concrete store. -/
theorem claim_C10_witness :
    ∃ p w', update wOne "p1" (some "dog") (some " tail") none = Except.ok (p, w') ∧
      p.content = "dog" ∧ alookup "p1" w'.pages = some p :=
  claim_C10 wOne "p1" "dog" " tail" none pgCat rfl
